import Mathlib

/-!
go-datagenerator: byte-pattern readers, size parsing and stream copy.

A shallow embedding of `reader.go` and of the `app.Action` of `main.go`.

* A byte is a `Nat` below 256, a `[]byte` buffer is a `List Nat`.
* A Go `Read(p []byte) (n int, err error)` call becomes a function from the
  reader's state and the buffer to a `ReadResult`: the state afterwards, the
  buffer afterwards, `n` and `err` (`none` is Go's `nil`).
* `uintN` counters are `Nat` with an explicit `% 2^N` at every increment.
* `int64` sizes are `Int` with an explicit wrap to `[-2^63, 2^63)` at the
  multiplication.
* A Go string is a `List Char`; the size argument is accepted only when it is
  ASCII, where bytes and characters coincide.
* `log.Fatalf` (the process exits) is `Except.error`.
* Mutexes are left out: every function here is one uninterrupted call.
-/

set_option autoImplicit false

deriving instance DecidableEq for Except

namespace DataGenerator

/-! ## Readers (`reader.go`) -/

/-- Outcome of one `Read(p []byte) (n int, err error)` call: the reader state
afterwards, the contents of `p` afterwards, the returned `n` and `err`. -/
structure ReadResult (σ : Type) where
  state : σ
  p : List Nat
  n : Nat
  err : Option String
deriving DecidableEq, Repr

/-- Method `(*zeroReader).Read`: `for i := range p { p[i] = 0 }; return len(p), nil`. -/
def zeroReader.Read (_r : Unit) (p : List Nat) : ReadResult Unit :=
  let q := (List.range p.length).foldl (fun (b : List Nat) (i : Nat) => b.set i 0) p
  ⟨(), q, p.length, none⟩

/-- Method `(*ffReader).Read`: `for i := range p { p[i] = 0xff }; return len(p), nil`. -/
def ffReader.Read (_r : Unit) (p : List Nat) : ReadResult Unit :=
  let q := (List.range p.length).foldl (fun (b : List Nat) (i : Nat) => b.set i 0xff) p
  ⟨(), q, p.length, none⟩

/-- Method `(*ByteCounterReader).Read`: `for i := range p { p[i] = r.ctr; r.ctr++ }`,
the increment wrapping at the width of `byte`; returns `len(p), nil`. -/
def ByteCounterReader.Read (ctr : Nat) (p : List Nat) : ReadResult Nat :=
  let s := (List.range p.length).foldl
    (fun (s : Nat × List Nat) (i : Nat) => ((s.1 + 1) % 2 ^ 8, s.2.set i s.1)) (ctr, p)
  ⟨s.1, s.2, p.length, none⟩

/-- Method `(*ByteCounterReader).Reset`: `r.ctr = 0`. -/
def ByteCounterReader.Reset (_ctr : Nat) : Nat := 0

/-- Modelled from the spec: `binary.BigEndian.PutUint16(b[i:i+2], v)` of Go's
standard library (encoding/binary, not under src/), which stores `v` big-endian:
`b[0] = byte(v >> 8); b[1] = byte(v)`, here on the sub-slice starting at `i`. -/
def putUint16 (b : List Nat) (i v : Nat) : List Nat :=
  (b.set i ((v >>> 8) % 256)).set (i + 1) (v % 256)

/-- Modelled from the spec: `binary.BigEndian.PutUint32(b[i:i+4], v)` of Go's
standard library (not under src/): `b[0] = byte(v >> 24)`, `b[1] = byte(v >> 16)`,
`b[2] = byte(v >> 8)`, `b[3] = byte(v)`. -/
def putUint32 (b : List Nat) (i v : Nat) : List Nat :=
  (((b.set i ((v >>> 24) % 256)).set (i + 1) ((v >>> 16) % 256)).set (i + 2)
    ((v >>> 8) % 256)).set (i + 3) (v % 256)

/-- Modelled from the spec: `binary.BigEndian.PutUint64(b[i:i+8], v)` of Go's
standard library (not under src/): `b[0] = byte(v >> 56)`, ..., `b[7] = byte(v)`. -/
def putUint64 (b : List Nat) (i v : Nat) : List Nat :=
  (((((((b.set i ((v >>> 56) % 256)).set (i + 1) ((v >>> 48) % 256)).set (i + 2)
    ((v >>> 40) % 256)).set (i + 3) ((v >>> 32) % 256)).set (i + 4)
    ((v >>> 24) % 256)).set (i + 5) ((v >>> 16) % 256)).set (i + 6)
    ((v >>> 8) % 256)).set (i + 7) (v % 256)

/-- The loop shared by the three multi-byte counter readers,
`for i := 0; i < l; i += w { put(p[i:i+w], r.ctr); r.ctr++ }`,
with `r.ctr++` wrapping at `2^bits`. The first argument after `l` bounds the
number of iterations; `Read` passes `l`, which is never exhausted. The result
is the counter and the buffer when the loop exits. -/
def counterLoop (w bits : Nat) (put : List Nat → Nat → Nat → List Nat) (l : Nat) :
    Nat → Nat → Nat → List Nat → Nat × List Nat
  | 0, _, ctr, p => (ctr, p)
  | fuel + 1, i, ctr, p =>
    if i < l then
      counterLoop w bits put l fuel (i + w) ((ctr + 1) % 2 ^ bits) (put p i ctr)
    else (ctr, p)

/-- Method `(*Uint16CounterReader).Read`: the length check, then the loop over
2-byte units, then `return len(p), nil`. -/
def Uint16CounterReader.Read (ctr : Nat) (p : List Nat) : ReadResult Nat :=
  let l := p.length
  if l % 2 ≠ 0 then
    ⟨ctr, p, 0, some "length must be multiple of 2"⟩
  else
    let s := counterLoop 2 16 putUint16 l l 0 ctr p
    ⟨s.1, s.2, p.length, none⟩

/-- Method `(*Uint16CounterReader).Reset`: `r.ctr = 0`. -/
def Uint16CounterReader.Reset (_ctr : Nat) : Nat := 0

/-- Method `(*Uint32CounterReader).Read`: the length check, then the loop over
4-byte units, then `return len(p), nil`. -/
def Uint32CounterReader.Read (ctr : Nat) (p : List Nat) : ReadResult Nat :=
  let l := p.length
  if l % 4 ≠ 0 then
    ⟨ctr, p, 0, some "length must be multiple of 4"⟩
  else
    let s := counterLoop 4 32 putUint32 l l 0 ctr p
    ⟨s.1, s.2, p.length, none⟩

/-- Method `(*Uint32CounterReader).Reset`: `r.ctr = 0`. -/
def Uint32CounterReader.Reset (_ctr : Nat) : Nat := 0

/-- Method `(*Uint64CounterReader).Read`: the length check, then the loop over
8-byte units, then `return len(p), nil`. -/
def Uint64CounterReader.Read (ctr : Nat) (p : List Nat) : ReadResult Nat :=
  let l := p.length
  if l % 8 ≠ 0 then
    ⟨ctr, p, 0, some "length must be multiple of 8"⟩
  else
    let s := counterLoop 8 64 putUint64 l l 0 ctr p
    ⟨s.1, s.2, p.length, none⟩

/-- Method `(*Uint64CounterReader).Reset`: `r.ctr = 0`. -/
def Uint64CounterReader.Reset (_ctr : Nat) : Nat := 0

/-- The `CounterReader` interface (`Read` and `Reset`) with its four
implementations in `reader.go`. -/
inductive CounterReader
  | byte
  | uint16
  | uint32
  | uint64
deriving DecidableEq, Repr

/-- Width in bytes of the counter type (`byte`, `uint16`, `uint32`, `uint64`). -/
def CounterReader.width : CounterReader → Nat
  | .byte => 1
  | .uint16 => 2
  | .uint32 => 4
  | .uint64 => 8

/-- Interface dispatch of `Read`. -/
def CounterReader.Read : CounterReader → Nat → List Nat → ReadResult Nat
  | .byte => ByteCounterReader.Read
  | .uint16 => Uint16CounterReader.Read
  | .uint32 => Uint32CounterReader.Read
  | .uint64 => Uint64CounterReader.Read

/-- Interface dispatch of `Reset`. -/
def CounterReader.Reset : CounterReader → Nat → Nat
  | .byte => ByteCounterReader.Reset
  | .uint16 => Uint16CounterReader.Reset
  | .uint32 => Uint32CounterReader.Reset
  | .uint64 => Uint64CounterReader.Reset

/-- A freshly constructed counter reader (`&ByteCounterReader{}` and the like):
the zero value of the struct, counter 0. -/
def CounterReader.fresh (_r : CounterReader) : Nat := 0

/-- Successive `Read` calls on one reader, one per buffer of the list, the
counter threaded from each call to the next: the final counter and the
results of the calls in order. -/
def CounterReader.readAll (r : CounterReader) : Nat → List (List Nat) → Nat × List (ReadResult Nat)
  | c, [] => (c, [])
  | c, p :: ps =>
    let res := r.Read c p
    let rest := CounterReader.readAll r res.state ps
    (rest.1, res :: rest.2)

/-! ## Random readers (`reader.go`) -/

/-- A source of `math/rand` as the readers see it: the sequence of raw values it
yields, and how many of them have been drawn. -/
structure Rand where
  draws : Nat → Nat
  pos : Nat

/-- Modelled from the spec: `rand.Intn(n)` of Go's math/rand (not under src/), a
draw from `[0, n)`: the next raw value reduced modulo `n`, so that every value
of `[0, n)` is the outcome for some source. The source advances by one draw. -/
def Rand.Intn (g : Rand) (n : Nat) : Nat × Rand :=
  (g.draws g.pos % n, ⟨g.draws, g.pos + 1⟩)

/-- The byte that `(*randAlphabetReader).Read` stores in one iteration,
`byte('A' + rand.Intn('Z' - 'A') + ('a' - 'A') * rand.Intn(2))`, the two draws
made left to right, and the source afterwards. -/
def randAlphabetByte (g : Rand) : Rand × Nat :=
  let a := g.Intn ('Z'.toNat - 'A'.toNat)
  let b := a.2.Intn 2
  (b.2, ('A'.toNat + a.1 + ('a'.toNat - 'A'.toNat) * b.1) % 256)

/-- Method `(*randAlphabetReader).Read`: `for i := range p { p[i] = ... }`, then
`return len(p), nil`. -/
def randAlphabetReader.Read (g : Rand) (p : List Nat) : ReadResult Rand :=
  let s := (List.range p.length).foldl
    (fun (s : Rand × List Nat) (i : Nat) =>
      ((randAlphabetByte s.1).1, s.2.set i (randAlphabetByte s.1).2)) (g, p)
  ⟨s.1, s.2, p.length, none⟩

/-- Constant `alphanumeric = "0123456789ABCDEFGHIJKLMNOPQRSTUVWXYZ"`, as bytes. -/
def alphanumeric : List Nat :=
  "0123456789ABCDEFGHIJKLMNOPQRSTUVWXYZ".toList.map Char.toNat

/-- The index expression `alphanumeric[i]`; an index out of range (a run-time
panic in Go) is `none`. -/
def alphanumericAt (i : Nat) : Option Nat := alphanumeric.get? i

/-- The byte that `(*randAlphaNumericReader).Read` stores in one iteration,
`alphanumeric[rand.Intn(len(alphanumeric))]`, and the source afterwards. -/
def randAlphaNumericByte (g : Rand) : Rand × Nat :=
  let a := g.Intn alphanumeric.length
  (a.2, (alphanumericAt a.1).getD 0)

/-- Method `(*randAlphaNumericReader).Read`: `for i := range p { p[i] = ... }`,
then `return len(p), nil`. -/
def randAlphaNumericReader.Read (g : Rand) (p : List Nat) : ReadResult Rand :=
  let s := (List.range p.length).foldl
    (fun (s : Rand × List Nat) (i : Nat) =>
      ((randAlphaNumericByte s.1).1, s.2.set i (randAlphaNumericByte s.1).2)) (g, p)
  ⟨s.1, s.2, p.length, none⟩

/-- Modelled from the spec: one byte of `(*rand.Rand).Read` of Go's math/rand (not
under src/), drawn from the full byte range, and the source afterwards. -/
def randByte (g : Rand) : Rand × Nat :=
  let a := g.Intn 256
  (a.2, a.1)

/-- Modelled from the spec: `RandReader.Read`, the method `(*rand.Rand).Read` of
Go's math/rand (not under src/): every byte of `p` is drawn from the full byte
range; it returns `len(p), nil`. -/
def RandReader.Read (g : Rand) (p : List Nat) : ReadResult Rand :=
  let s := (List.range p.length).foldl
    (fun (s : Rand × List Nat) (i : Nat) =>
      ((randByte s.1).1, s.2.set i (randByte s.1).2)) (g, p)
  ⟨s.1, s.2, p.length, none⟩

/-! ## The registry and the lookup of `--data` (`main.go`) -/

/-- The reader values that `main` puts in its registry: the five package-level
readers of `reader.go` and one instance of each counter reader. -/
inductive Reader
  | ZeroReader
  | FfReader
  | RandReader
  | RandomAlphabetReader
  | RandomAlphabetNumericCharacterReader
  | counter (r : CounterReader)
deriving DecidableEq, Repr

/-- Struct `type dataOption struct { Key string; Description string; reader io.Reader }`. -/
structure dataOption where
  Key : String
  Description : String
  reader : Reader
deriving DecidableEq, Repr

/-- The list `dataOptionList` as built at the start of `main`. -/
def dataOptionList : List dataOption :=
  [ ⟨"0", "Fill with 0x00.", Reader.ZeroReader⟩,
    ⟨"f", "Fill with 0xFF.", Reader.FfReader⟩,
    ⟨"r", "Fiil with random bytes.", Reader.RandReader⟩,
    ⟨"ra", "Fill with random alphabet character.", Reader.RandomAlphabetReader⟩,
    ⟨"ran", "Fill with random alphabet and numeric characters.",
      Reader.RandomAlphabetNumericCharacterReader⟩,
    ⟨"ctr", "Fill with bytes increasing from 0x00 to 0xFF. After 0xFF it backs to 0x00.",
      Reader.counter CounterReader.byte⟩,
    ⟨"ctr2", "Fill with uint16(BigEndian) increasing from 0x0000 to 0xFFFF.\n\t       After 0xFFFF, the value starts from 0x0000 again.\n\t       The size must be a multiple of 2.",
      Reader.counter CounterReader.uint16⟩,
    ⟨"ctr4", "Fill with uint32(BigEndian) increasing from 0x00000000 to 0xFFFFFFFF.\n\t       After 0xFFFFFFFF, the value starts from 0x0000 again.\n\t       The size must be a multiple of 4.",
      Reader.counter CounterReader.uint32⟩,
    ⟨"ctr8", "Fill with uint64(BigEndian) increasing from 0x0000000000000000 to 0xFFFFFFFFFFFFFFFF.\n\t       After 0xFFFFFFFFFFFFFFFF, the value starts from 0x0000000000000000 again.\n\t       The size must be a multiple of 8.",
      Reader.counter CounterReader.uint64⟩ ]

/-- The `--data` lookup of `app.Action` (main.go:116-127) over a registry:
`ZeroReader` for the empty key, otherwise the loop
`for _, d := range list { if d.Key == dataOption { reader = d.reader } }`
starting from `var reader io.Reader` (nil, here `none`). -/
def lookupReader (list : List dataOption) (key : String) : Option Reader :=
  if key = "" then some Reader.ZeroReader
  else list.foldl (fun (reader : Option Reader) (d : dataOption) =>
    if d.Key = key then some d.reader else reader) none

/-! ## The stream copy (`io.CopyN` through `bufio.Writer`) -/

/-- Modelled from the spec: the loop of the stream copier of §4.4, which stands
for `io.CopyN(writer, reader, size)` and `writer.Flush()` of Go's standard library
(io and bufio are not under src/). While `writtenSoFar` differs from `totalBytes`:
compute `remaining`, fill the first `min(chunkSize, remaining)` bytes of the
working buffer via the generator, abort with the error if the fill fails,
otherwise write the filled bytes to the sink and advance `writtenSoFar`.
The sink is the list of bytes received so far and accepts every write. The
first argument after `totalBytes` bounds the number of fills; a copy that
uses them all up without reaching `totalBytes` made no progress and fails. -/
def copyLoop {σ : Type} (fill : σ → List Nat → ReadResult σ) (chunkSize totalBytes : Nat) :
    Nat → σ → List Nat → List Nat → Nat → Except String (σ × List Nat)
  | 0, st, _, sink, writtenSoFar =>
    if writtenSoFar = totalBytes then .ok (st, sink)
    else .error "multiple Read calls return no data or error"
  | fuel + 1, st, buf, sink, writtenSoFar =>
    if writtenSoFar = totalBytes then .ok (st, sink)
    else
      let remaining := totalBytes - writtenSoFar
      let k := min chunkSize remaining
      let res := fill st (buf.take k)
      match res.err with
      | some e => .error e
      | none =>
        copyLoop fill chunkSize totalBytes fuel res.state (res.p ++ buf.drop k)
          (sink ++ res.p.take res.n) (writtenSoFar + res.n)

/-- Modelled from the spec: `copy(generator, sink, totalBytes)` of §4.4 with an
empty sink and a working buffer of `chunkSize` bytes: the generator state
afterwards and the bytes the sink received, or the error. -/
def copy {σ : Type} (fill : σ → List Nat → ReadResult σ) (chunkSize : Nat) (st : σ)
    (totalBytes : Nat) : Except String (σ × List Nat) :=
  copyLoop fill chunkSize totalBytes totalBytes st (List.replicate chunkSize 0) [] 0

/-- Modelled from the spec: the chunk size of the copy as `main` runs it, the
size of the buffer of `bufio.NewWriter` (`defaultBufSize` of Go's bufio, not
under src/). -/
def defaultBufSize : Nat := 4096

/-- Modelled from the spec: `io.CopyN(writer, reader, size)` and `writer.Flush()`
of main.go:164-173, the copier of §4.4 run with the buffered writer's chunk size. -/
def CopyN {σ : Type} (fill : σ → List Nat → ReadResult σ) (st : σ) (size : Nat) :
    Except String (σ × List Nat) :=
  copy fill defaultBufSize st size

/-! ## The size argument (`main.go`, lines 96-113) -/

/-- Constant `kb = 1024`. -/
def kb : Int := 1024

/-- Constant `mb = kb * 1024`. -/
def mb : Int := kb * 1024

/-- Constant `gb = mb * 1024`. -/
def gb : Int := mb * 1024

/-- Constant `maxFileSize = 1 * gb`. -/
def maxFileSize : Int := 1 * gb

/-- Go's `int64` arithmetic wraps: the representative of `x` in `[-2^63, 2^63)`. -/
def wrapInt64 (x : Int) : Int := (x + 2 ^ 63) % 2 ^ 64 - 2 ^ 63

/-- Function `strings.HasSuffix(s, suffix)` of Go's standard library:
`len(s) >= len(suffix) && s[len(s)-len(suffix):] == suffix`. -/
def HasSuffix (s suffix : List Char) : Bool :=
  decide (suffix.length ≤ s.length) && (s.drop (s.length - suffix.length) == suffix)

/-- Function `lower(c)` of Go's strconv: `c | ('x' - 'X')`. -/
def lower (c : Char) : Nat := c.toNat ||| 32

/-- The digit loop of `strconv.ParseUint` for bit size 64:
`n` is the value so far, `underscores` whether a `_` was seen. -/
def parseDigits (base : Nat) : List Char → Nat → Bool → Except String (Nat × Bool)
  | [], n, underscores => .ok (n, underscores)
  | c :: cs, n, underscores =>
    if c = '_' then parseDigits base cs n true
    else
      let d : Option Nat :=
        if '0'.toNat ≤ c.toNat ∧ c.toNat ≤ '9'.toNat then some (c.toNat - '0'.toNat)
        else if 'a'.toNat ≤ lower c ∧ lower c ≤ 'z'.toNat then some (lower c - 'a'.toNat + 10)
        else none
      match d with
      | none => .error "invalid syntax"
      | some d =>
        if d ≥ base then .error "invalid syntax"
        else if n ≥ (2 ^ 64 - 1) / base + 1 then .error "value out of range"
        else
          let n1 := (n * base + d) % 2 ^ 64
          if n1 < n * base ∨ n1 > 2 ^ 64 - 1 then .error "value out of range"
          else parseDigits base cs n1 underscores

/-- The scan of `underscoreOK` of Go's strconv over the number proper; `saw` is
the last character class seen (`'0'`, `'_'`, `'!'`, or `'^'` at the start). -/
def underscoreScan (hex : Bool) : List Char → Char → Bool
  | [], saw => saw != '_'
  | c :: cs, saw =>
    if ('0'.toNat ≤ c.toNat ∧ c.toNat ≤ '9'.toNat) ∨
        (hex = true ∧ 'a'.toNat ≤ lower c ∧ lower c ≤ 'f'.toNat) then
      underscoreScan hex cs '0'
    else if c = '_' then
      if saw ≠ '0' then false else underscoreScan hex cs '_'
    else if saw = '_' then false
    else underscoreScan hex cs '!'

/-- Function `underscoreOK(s)` of Go's strconv: underscores must separate digits, or a
base prefix and a digit. -/
def underscoreOK (s : List Char) : Bool :=
  let s := match s with
    | '-' :: t => t
    | '+' :: t => t
    | _ => s
  match s with
  | '0' :: c :: t =>
    if lower c = 'b'.toNat ∨ lower c = 'o'.toNat ∨ lower c = 'x'.toNat then
      underscoreScan (lower c == 'x'.toNat) t '0'
    else underscoreScan false s '^'
  | _ => underscoreScan false s '^'

/-- The prefix switch of `strconv.ParseUint` for base 0 on a non-empty string
`c0 :: rest`: the base and the digits left for the digit loop
(`0b`, `0o`, `0x` need `len(s) >= 3`; any other leading `0` means octal). -/
def basePrefix (c0 : Char) (rest : List Char) : Nat × List Char :=
  if c0 = '0' then
    match rest with
    | c1 :: c2 :: t =>
      if lower c1 = 'b'.toNat then (2, c2 :: t)
      else if lower c1 = 'o'.toNat then (8, c2 :: t)
      else if lower c1 = 'x'.toNat then (16, c2 :: t)
      else (8, rest)
    | _ => (8, rest)
  else (10, c0 :: rest)

/-- Function `strconv.ParseUint(s, 0, 64)` of Go's standard library (strconv is not under
src/; this follows its documented behaviour for base 0: the base is given by
the prefix, 2 for `0b`, 8 for `0o` or a leading `0`, 16 for `0x`, 10 otherwise,
and underscores are allowed as in Go integer literals). -/
def ParseUint (s : List Char) : Except String Nat :=
  match s with
  | [] => .error "invalid syntax"
  | c0 :: rest =>
    let pr := basePrefix c0 rest
    match parseDigits pr.1 pr.2 0 false with
    | .error e => .error e
    | .ok (n, underscores) =>
      if underscores && !underscoreOK s then .error "invalid syntax" else .ok n

/-- Function `strconv.ParseInt(s, 0, 64)` of Go's standard library: an optional sign, then
`ParseUint`, then the range check against `[-2^63, 2^63)`. -/
def ParseInt (s : List Char) : Except String Int :=
  match s with
  | [] => .error "invalid syntax"
  | c0 :: rest =>
    let neg := decide (c0 = '-')
    let body := if c0 = '+' ∨ c0 = '-' then rest else s
    match ParseUint body with
    | .error e => .error e
    | .ok un =>
      if !neg && decide (un ≥ 2 ^ 63) then .error "value out of range"
      else if neg && decide (un > 2 ^ 63) then .error "value out of range"
      else .ok (if neg then -(un : Int) else (un : Int))

/-- The size stage of `app.Action` (main.go:96-113): strip a `KB`/`kb` or
`MB`/`mb` suffix, parse the rest with `strconv.ParseInt(sizeArg, 0, 64)`,
reject a parse error or a negative value, multiply by the factor in `int64`,
reject a size above `maxFileSize`. `.error` is `log.Fatalf` (the process exits
before any streaming); `.ok size` is the size passed on to the copy. -/
def sizeStage (sizeArg : List Char) : Except String Int :=
  let fs : Int × List Char :=
    if HasSuffix sizeArg "KB".toList || HasSuffix sizeArg "kb".toList then
      (kb, sizeArg.take (sizeArg.length - 2))
    else if HasSuffix sizeArg "MB".toList || HasSuffix sizeArg "mb".toList then
      (mb, sizeArg.take (sizeArg.length - 2))
    else (1, sizeArg)
  match ParseInt fs.2 with
  | .error _ => .error "[Error] invalid as a size argument"
  | .ok size =>
    if size < 0 then .error "[Error] invalid as a size argument"
    else
      let size := wrapInt64 (size * fs.1)
      if size > maxFileSize then .error "[Error] too large"
      else .ok size


/-! ## The action as a whole (`main.go`, lines 90-174) -/

/-- The check after the lookup (main.go:129-131): `reader == nil` is
`log.Fatalf("[Error] Invalid --data option.\n")`. -/
def dataStage (key : String) : Except String Reader :=
  match lookupReader dataOptionList key with
  | none => .error "[Error] Invalid --data option.\n"
  | some reader => .ok reader

/-- The state behind the readers of one run: the counter of the selected
counter reader, the source owned by `RandReader`, and the process-wide source
used by `rand.Intn`. -/
structure ReaderState where
  ctr : Nat
  randReader : Rand
  globalRand : Rand

/-- Interface dispatch of `io.Reader.Read` over the readers of the registry. -/
def Reader.Read : Reader → ReaderState → List Nat → ReadResult ReaderState
  | .ZeroReader, st, p =>
    let res := zeroReader.Read () p
    ⟨st, res.p, res.n, res.err⟩
  | .FfReader, st, p =>
    let res := ffReader.Read () p
    ⟨st, res.p, res.n, res.err⟩
  | .RandReader, st, p =>
    let res := RandReader.Read st.randReader p
    ⟨⟨st.ctr, res.state, st.globalRand⟩, res.p, res.n, res.err⟩
  | .RandomAlphabetReader, st, p =>
    let res := randAlphabetReader.Read st.globalRand p
    ⟨⟨st.ctr, st.randReader, res.state⟩, res.p, res.n, res.err⟩
  | .RandomAlphabetNumericCharacterReader, st, p =>
    let res := randAlphaNumericReader.Read st.globalRand p
    ⟨⟨st.ctr, st.randReader, res.state⟩, res.p, res.n, res.err⟩
  | .counter r, st, p =>
    let res := r.Read st.ctr p
    ⟨⟨res.state, st.randReader, st.globalRand⟩, res.p, res.n, res.err⟩

/-- The action of `main` with output to stdout: the size stage, the `--data`
lookup and its check, then the copy of `size` bytes; the bytes written, or the
message of `log.Fatalf`. -/
def Action (key : String) (sizeArg : List Char) (st : ReaderState) :
    Except String (List Nat) :=
  match sizeStage sizeArg with
  | .error e => .error e
  | .ok size =>
    match dataStage key with
    | .error e => .error e
    | .ok reader =>
      match CopyN reader.Read st size.toNat with
      | .error e => .error ("[Error] Failed to write data.\n" ++ e ++ "\n")
      | .ok out => .ok out.2

/-! ## Reference encodings used in the statements -/

/-- The big-endian encoding of `v` in `w` bytes, most significant byte first. -/
def bigEndian : Nat → Nat → List Nat
  | 0, _ => []
  | w + 1, v => (v / 256 ^ w) % 256 :: bigEndian w v

/-- Big-endian decoding of a byte string to an unsigned integer. -/
def decodeBE (bs : List Nat) : Nat :=
  bs.foldl (fun a b => a * 256 + b) 0

/-- The run `counterRun w c n` is the byte string of `n` consecutive `w`-byte units,
the `k`-th being the big-endian encoding of `(c + k) mod 2^(8w)`. -/
def counterRun (w : Nat) : Nat → Nat → List Nat
  | _, 0 => []
  | c, n + 1 => bigEndian w (c % 2 ^ (8 * w)) ++ counterRun w (c + 1) n

/-- The characters of the size suffixes that no numeric literal contains. -/
def suffixLetter (c : Char) : Prop := c = 'K' ∨ c = 'k' ∨ c = 'M' ∨ c = 'm'

/-- The `k`-th `w`-byte unit of a buffer: bytes `[k*w, k*w + w)`. -/
def unitAt (w : Nat) (p : List Nat) (k : Nat) : List Nat :=
  (p.drop (k * w)).take w

/-- The generator of the first entry in list order whose `Key` equals `key`. -/
def firstMatch (list : List dataOption) (key : String) : Option Reader :=
  (list.find? (fun d => d.Key == key)).map (fun d => d.reader)

/-- The generator of the last entry in list order whose `Key` equals `key`. -/
def lastMatch (list : List dataOption) (key : String) : Option Reader :=
  (list.reverse.find? (fun d => d.Key == key)).map (fun d => d.reader)

/-- The base-10 value of a string of decimal digits. -/
def decimalValue (ds : List Char) : Nat :=
  ds.foldl (fun a c => a * 10 + (c.toNat - '0'.toNat)) 0

/-- A decimal digit `0`..`9`. -/
@[reducible] def isDecimalDigit (c : Char) : Prop := '0'.toNat ≤ c.toNat ∧ c.toNat ≤ '9'.toNat

/-- An ASCII letter, `A`..`Z` or `a`..`z`. -/
def isLetter (b : Nat) : Prop :=
  ('A'.toNat ≤ b ∧ b ≤ 'Z'.toNat) ∨ ('a'.toNat ≤ b ∧ b ≤ 'z'.toNat)

/-- A character of the set `[0-9A-Z]`. -/
def isUpperAlphaNumeric (b : Nat) : Prop :=
  ('0'.toNat ≤ b ∧ b ≤ '9'.toNat) ∨ ('A'.toNat ≤ b ∧ b ≤ 'Z'.toNat)

/-- The bytes a reader writes when it stores `n` bytes one after the other,
each computed by `f` from the source, and the source afterwards. -/
def drawBytes (f : Rand → Rand × Nat) : Nat → Rand → Rand × List Nat
  | 0, g => (g, [])
  | n + 1, g =>
    let r := drawBytes f n g
    ((f r.1).1, r.2 ++ [(f r.1).2])

/-- The error of the length check of a counter reader's `Read`; the byte
counter has no length check. -/
def CounterReader.lengthError : CounterReader → Option String
  | .byte => none
  | .uint16 => some "length must be multiple of 2"
  | .uint32 => some "length must be multiple of 4"
  | .uint64 => some "length must be multiple of 8"

/-! ## Lemmas -/

theorem bigEndian_length (w v : Nat) : (bigEndian w v).length = w := by
  induction w with
  | zero => rfl
  | succ w ih => simp [bigEndian, ih]

theorem counterRun_length (w c n : Nat) : (counterRun w c n).length = w * n := by
  induction n generalizing c with
  | zero => simp [counterRun]
  | succ n ih => simp [counterRun, ih, bigEndian_length, Nat.mul_succ, Nat.add_comm]

theorem putUint16_spec (pre u post : List Nat) (v : Nat) (hu : u.length = 2) :
    putUint16 (pre ++ u ++ post) pre.length v = pre ++ bigEndian 2 v ++ post := by
  rcases u with _ | ⟨x0, _ | ⟨x1, _ | ⟨x2, t⟩⟩⟩ <;> simp at hu
  simp [putUint16, bigEndian, Nat.shiftRight_eq_div_pow]

theorem putUint32_spec (pre u post : List Nat) (v : Nat) (hu : u.length = 4) :
    putUint32 (pre ++ u ++ post) pre.length v = pre ++ bigEndian 4 v ++ post := by
  rcases u with _ | ⟨x0, _ | ⟨x1, _ | ⟨x2, _ | ⟨x3, _ | ⟨x4, t⟩⟩⟩⟩⟩ <;> simp at hu
  simp [putUint32, bigEndian, Nat.shiftRight_eq_div_pow]

theorem putUint64_spec (pre u post : List Nat) (v : Nat) (hu : u.length = 8) :
    putUint64 (pre ++ u ++ post) pre.length v = pre ++ bigEndian 8 v ++ post := by
  rcases u with _ | ⟨x0, _ | ⟨x1, _ | ⟨x2, _ | ⟨x3, _ | ⟨x4, _ | ⟨x5, _ | ⟨x6, _ | ⟨x7, _ | ⟨x8, t⟩⟩⟩⟩⟩⟩⟩⟩⟩
    <;> simp at hu
  simp [putUint64, bigEndian, Nat.shiftRight_eq_div_pow]


theorem counterLoop_spec (w bits : Nat) (put : List Nat → Nat → Nat → List Nat)
    (hw : 0 < w) (hbits : bits = 8 * w)
    (hput : ∀ (pre u post : List Nat) (v : Nat), u.length = w →
      put (pre ++ u ++ post) pre.length v = pre ++ bigEndian w v ++ post) :
    ∀ (m fuel l : Nat) (pre rest : List Nat) (c : Nat),
      rest.length = w * m → l = pre.length + w * m → m ≤ fuel →
      counterLoop w bits put l fuel pre.length (c % 2 ^ bits) (pre ++ rest)
        = ((c + m) % 2 ^ bits, pre ++ counterRun w c m) := by
  intro m
  induction m with
  | zero =>
    intro fuel l pre rest c hrest hl _
    have hnil : rest = [] := List.length_eq_zero.mp (by simpa using hrest)
    subst hnil
    cases fuel with
    | zero => simp [counterLoop, counterRun]
    | succ fuel => simp [counterLoop, counterRun, hl]
  | succ m ih =>
    intro fuel l pre rest c hrest hl hfuel
    cases fuel with
    | zero => omega
    | succ fuel =>
      have hlt : pre.length < l := by
        have : 0 < w * (m + 1) := Nat.mul_pos hw (Nat.succ_pos m)
        omega
      have hlen : w ≤ rest.length := by
        rw [hrest]; exact Nat.le_mul_of_pos_right w (Nat.succ_pos m)
      have hsplit : pre ++ rest = pre ++ rest.take w ++ rest.drop w := by
        rw [List.append_assoc, List.take_append_drop]
      have htake : (rest.take w).length = w := by simp [hlen]
      have hdrop : (rest.drop w).length = w * m := by
        simp [hrest, Nat.mul_succ]
      have hpre : (pre ++ bigEndian w (c % 2 ^ bits)).length = pre.length + w := by
        simp [bigEndian_length]
      have hstep : (c % 2 ^ bits + 1) % 2 ^ bits = (c + 1) % 2 ^ bits := by
        simp [Nat.add_mod]
      have hl2 : l = (pre ++ bigEndian w (c % 2 ^ bits)).length + w * m := by
        rw [hpre, hl, Nat.mul_succ]; omega
      have key := ih fuel l (pre ++ bigEndian w (c % 2 ^ bits)) (rest.drop w) (c + 1)
        hdrop hl2 (by omega)
      rw [hpre] at key
      unfold counterLoop
      rw [if_pos hlt, hsplit, hput pre (rest.take w) (rest.drop w) _ htake, hstep, key]
      simp [counterRun, hbits, Nat.add_assoc, Nat.add_comm 1 m]


theorem set_append_cons {α : Type} (pre : List α) (x a : α) (post : List α) (k : Nat)
    (hk : pre.length = k) : (pre ++ x :: post).set k a = pre ++ a :: post := by
  subst hk
  induction pre with
  | nil => simp
  | cons y pre ih => simp [ih]


theorem foldl_set_const (v : Nat) :
    ∀ (k : Nat) (p : List Nat), k ≤ p.length →
      (List.range k).foldl (fun (b : List Nat) (i : Nat) => b.set i v) p
        = List.replicate k v ++ p.drop k := by
  intro k
  induction k with
  | zero => intro p _; simp
  | succ k ih =>
    intro p hk
    rw [List.range_succ, List.foldl_append, ih p (by omega)]
    simp only [List.foldl_cons, List.foldl_nil]
    have hd : p.drop k = p[k] :: p.drop (k + 1) := by
      rw [List.drop_eq_getElem_cons]
    rw [hd, set_append_cons _ _ _ _ _ (by simp), List.replicate_succ']
    simp

theorem counterRun_add (w : Nat) :
    ∀ (n m c : Nat), counterRun w c (n + m) = counterRun w c n ++ counterRun w (c + n) m := by
  intro n
  induction n with
  | zero => intro m c; simp [counterRun]
  | succ n ih =>
    intro m c
    rw [Nat.succ_add]
    simp only [counterRun]
    rw [ih m (c + 1), List.append_assoc]
    congr 3
    omega

theorem bigEndian_one (v : Nat) : bigEndian 1 v = [v % 256] := by
  simp [bigEndian]

theorem foldl_set_counter :
    ∀ (k : Nat) (p : List Nat) (c : Nat), k ≤ p.length →
      (List.range k).foldl
        (fun (s : Nat × List Nat) (i : Nat) => ((s.1 + 1) % 2 ^ 8, s.2.set i s.1)) (c % 2 ^ 8, p)
        = ((c + k) % 2 ^ 8, counterRun 1 c k ++ p.drop k) := by
  intro k
  induction k with
  | zero => intro p c _; simp [counterRun]
  | succ k ih =>
    intro p c hk
    rw [List.range_succ, List.foldl_append, ih p c (by omega)]
    simp only [List.foldl_cons, List.foldl_nil]
    have hd : p.drop k = p[k] :: p.drop (k + 1) := by
      rw [List.drop_eq_getElem_cons]
    rw [hd, set_append_cons _ _ _ _ _ (by simp [counterRun_length]), counterRun_add 1 k 1 c]
    simp [counterRun, bigEndian_one, Nat.add_assoc]


theorem unitAt_counterRun (w c n k : Nat) (hk : k < n) :
    unitAt w (counterRun w c n) k = bigEndian w ((c + k) % 2 ^ (8 * w)) := by
  have hn : n = k + ((n - k - 1) + 1) := by omega
  rw [hn, counterRun_add]
  simp only [counterRun, unitAt]
  rw [List.drop_append_of_le_length (by simp [counterRun_length, Nat.mul_comm])]
  rw [List.drop_of_length_le (by simp [counterRun_length, Nat.mul_comm])]
  rw [List.nil_append, List.take_append_of_le_length (by simp [bigEndian_length])]
  rw [List.take_of_length_le (by simp [bigEndian_length])]

theorem foldl_bigEndian (w v a : Nat) :
    (bigEndian w v).foldl (fun a b => a * 256 + b) a = a * 256 ^ w + v % 256 ^ w := by
  induction w generalizing a with
  | zero => simp [bigEndian, Nat.mod_one]
  | succ w ih =>
    simp only [bigEndian, List.foldl_cons]
    rw [ih, Nat.mod_pow_succ]
    ring

theorem decodeBE_bigEndian (w v : Nat) (hv : v < 2 ^ (8 * w)) :
    decodeBE (bigEndian w v) = v := by
  have h256 : (256 : Nat) ^ w = 2 ^ (8 * w) := by
    rw [Nat.pow_mul]
  unfold decodeBE
  rw [foldl_bigEndian, h256, Nat.mod_eq_of_lt hv]
  simp

theorem pow_bits_pos (w : Nat) : 0 < 2 ^ (8 * w) := Nat.pow_pos (by decide)

theorem ByteCounterReader_Read_eq (c : Nat) (p : List Nat) (hc : c < 2 ^ 8) :
    ByteCounterReader.Read c p
      = ⟨(c + p.length) % 2 ^ 8, counterRun 1 c p.length, p.length, none⟩ := by
  have h := foldl_set_counter p.length p c (Nat.le_refl _)
  rw [Nat.mod_eq_of_lt hc] at h
  simp only [ByteCounterReader.Read, h]
  simp

theorem counterLoop_Read (w bits : Nat) (put : List Nat → Nat → Nat → List Nat)
    (hw : 0 < w) (hbits : bits = 8 * w)
    (hput : ∀ (pre u post : List Nat) (v : Nat), u.length = w →
      put (pre ++ u ++ post) pre.length v = pre ++ bigEndian w v ++ post)
    (c : Nat) (p : List Nat) (hc : c < 2 ^ bits) (hp : p.length % w = 0) :
    counterLoop w bits put p.length p.length 0 c p
      = ((c + p.length / w) % 2 ^ bits, counterRun w c (p.length / w)) := by
  have hlen : p.length = w * (p.length / w) := by
    have := Nat.div_add_mod p.length w
    omega
  have hle : p.length / w ≤ p.length := Nat.div_le_self _ _
  have h := counterLoop_spec w bits put hw hbits hput (p.length / w) p.length p.length [] p c
    hlen (by simpa using hlen) hle
  rw [Nat.mod_eq_of_lt hc] at h
  simpa using h

theorem CounterReader_width_pos (r : CounterReader) : 0 < r.width := by
  cases r <;> decide

theorem CounterReader_Read_aligned (r : CounterReader) (c : Nat) (p : List Nat)
    (hc : c < 2 ^ (8 * r.width)) (hp : p.length % r.width = 0) :
    r.Read c p = ⟨(c + p.length / r.width) % 2 ^ (8 * r.width),
      counterRun r.width c (p.length / r.width), p.length, none⟩ := by
  cases r with
  | byte =>
    simp only [CounterReader.width] at hc ⊢
    simpa using ByteCounterReader_Read_eq c p hc
  | uint16 =>
    simp only [CounterReader.width] at hc hp ⊢
    have h := counterLoop_Read 2 16 putUint16 (by decide) rfl putUint16_spec c p hc hp
    simp [CounterReader.Read, Uint16CounterReader.Read, hp, h]
  | uint32 =>
    simp only [CounterReader.width] at hc hp ⊢
    have h := counterLoop_Read 4 32 putUint32 (by decide) rfl putUint32_spec c p hc hp
    simp [CounterReader.Read, Uint32CounterReader.Read, hp, h]
  | uint64 =>
    simp only [CounterReader.width] at hc hp ⊢
    have h := counterLoop_Read 8 64 putUint64 (by decide) rfl putUint64_spec c p hc hp
    simp [CounterReader.Read, Uint64CounterReader.Read, hp, h]

theorem CounterReader_Read_misaligned (r : CounterReader) (c : Nat) (p : List Nat)
    (hp : p.length % r.width ≠ 0) :
    ∃ msg : String, r.Read c p = ⟨c, p, 0, some msg⟩ := by
  cases r with
  | byte => simp [CounterReader.width, Nat.mod_one] at hp
  | uint16 =>
    simp only [CounterReader.width] at hp
    exact ⟨"length must be multiple of 2", by simp [CounterReader.Read, Uint16CounterReader.Read, hp]⟩
  | uint32 =>
    simp only [CounterReader.width] at hp
    exact ⟨"length must be multiple of 4", by simp [CounterReader.Read, Uint32CounterReader.Read, hp]⟩
  | uint64 =>
    simp only [CounterReader.width] at hp
    exact ⟨"length must be multiple of 8", by simp [CounterReader.Read, Uint64CounterReader.Read, hp]⟩


theorem counterRun_mod (w : Nat) :
    ∀ (n c : Nat), counterRun w (c % 2 ^ (8 * w)) n = counterRun w c n := by
  intro n
  induction n with
  | zero => intro c; simp [counterRun]
  | succ n ih =>
    intro c
    simp only [counterRun, Nat.mod_mod]
    rw [← ih (c % 2 ^ (8 * w) + 1), ← ih (c + 1)]
    simp [Nat.add_mod]

theorem CounterReader_readAll_aligned (r : CounterReader) :
    ∀ (ps : List (List Nat)) (c : Nat), c < 2 ^ (8 * r.width) →
      (∀ p ∈ ps, p.length % r.width = 0) →
      (r.readAll c ps).1 = (c + (ps.map List.length).sum / r.width) % 2 ^ (8 * r.width) ∧
      (∀ res ∈ (r.readAll c ps).2, res.err = none) ∧
      ((r.readAll c ps).2.map (fun res => res.n)) = ps.map List.length ∧
      ((r.readAll c ps).2.map (fun res => res.p)).flatten
        = counterRun r.width c ((ps.map List.length).sum / r.width) := by
  intro ps
  induction ps with
  | nil =>
    intro c hc _
    simp [CounterReader.readAll, counterRun, Nat.mod_eq_of_lt hc]
  | cons p ps ih =>
    intro c hc hall
    have hp : p.length % r.width = 0 := hall p (List.mem_cons_self _ _)
    have hps : ∀ q ∈ ps, q.length % r.width = 0 := fun q hq => hall q (List.mem_cons_of_mem _ hq)
    have hM := pow_bits_pos r.width
    have hc2 : (c + p.length / r.width) % 2 ^ (8 * r.width) < 2 ^ (8 * r.width) :=
      Nat.mod_lt _ hM
    obtain ⟨h1, h2, h3, h4⟩ := ih _ hc2 hps
    have hdiv : (p.length + (ps.map List.length).sum) / r.width
        = p.length / r.width + (ps.map List.length).sum / r.width :=
      Nat.add_div_of_dvd_right (Nat.dvd_of_mod_eq_zero hp)
    simp only [CounterReader.readAll, CounterReader_Read_aligned r c p hc hp, List.map_cons,
      List.sum_cons, List.flatten_cons, hdiv]
    refine ⟨?_, ?_, ?_, ?_⟩
    · rw [h1, Nat.mod_add_mod, Nat.add_assoc]
    · intro res hres
      rcases List.mem_cons.mp hres with rfl | hres
      · rfl
      · exact h2 res hres
    · rw [h3]
    · rw [h4, counterRun_mod, counterRun_add]

theorem counterRun_wrap (r : CounterReader) :
    counterRun r.width (2 ^ (8 * r.width) - 1) 2
      = List.replicate r.width 0xff ++ List.replicate r.width 0x00 := by
  cases r <;> decide

theorem copyLoop_spec {σ : Type} (fill : σ → List Nat → ReadResult σ)
    (w chunk total : Nat) (Inv : σ → Prop) (out : σ → Nat → List Nat) (nxt : σ → Nat → σ)
    (hchunk : 0 < chunk) (hcw : w ∣ chunk)
    (hfill : ∀ (s : σ) (p : List Nat), Inv s → w ∣ p.length →
      fill s p = ⟨nxt s p.length, out s p.length, p.length, none⟩)
    (hlen : ∀ (s : σ) (k : Nat), w ∣ k → (out s k).length = k)
    (hinv : ∀ (s : σ) (k : Nat), Inv s → Inv (nxt s k))
    (hout : ∀ (s : σ) (a b : Nat), Inv s → w ∣ a → w ∣ b →
      out s (a + b) = out s a ++ out (nxt s a) b)
    (hnxt : ∀ (s : σ) (a b : Nat), Inv s → w ∣ a → w ∣ b →
      nxt s (a + b) = nxt (nxt s a) b)
    (hout0 : ∀ (s : σ), out s 0 = [])
    (hnxt0 : ∀ (s : σ), Inv s → nxt s 0 = s) :
    ∀ (fuel rem : Nat) (s : σ) (buf sink : List Nat) (written : Nat),
      Inv s → w ∣ rem → total = written + rem → buf.length = chunk → rem ≤ fuel →
      copyLoop fill chunk total fuel s buf sink written
        = .ok (nxt s rem, sink ++ out s rem) := by
  intro fuel
  induction fuel with
  | zero =>
    intro rem s buf sink written hs _ htot _ hfuel
    have hrem : rem = 0 := by omega
    subst hrem
    simp [copyLoop, htot, hout0, hnxt0 s hs]
  | succ fuel ih =>
    intro rem s buf sink written hs hwrem htot hbuf hfuel
    by_cases hrem : rem = 0
    · subst hrem
      simp [copyLoop, htot, hout0, hnxt0 s hs]
    · have hne : ¬ written = total := by omega
      have hremaining : total - written = rem := by omega
      have hkpos : 0 < min chunk rem := by
        have : 0 < rem := Nat.pos_of_ne_zero hrem
        exact Nat.lt_min.mpr ⟨hchunk, this⟩
      have hkw : w ∣ min chunk rem := by
        rcases Nat.le_total chunk rem with h | h
        · rw [Nat.min_eq_left h]; exact hcw
        · rw [Nat.min_eq_right h]; exact hwrem
      have hkle : min chunk rem ≤ rem := Nat.min_le_right _ _
      have hkc : min chunk rem ≤ chunk := Nat.min_le_left _ _
      have htake : (buf.take (min chunk rem)).length = min chunk rem := by
        rw [List.length_take, hbuf]; omega
      have hf := hfill s (buf.take (min chunk rem)) hs (by rw [htake]; exact hkw)
      rw [htake] at hf
      have hrem2 : w ∣ rem - min chunk rem := Nat.dvd_sub' hwrem hkw
      have hbuf2 : (out s (min chunk rem) ++ buf.drop (min chunk rem)).length = chunk := by
        rw [List.length_append, hlen s _ hkw, List.length_drop, hbuf]; omega
      have key := ih (rem - min chunk rem) (nxt s (min chunk rem))
        (out s (min chunk rem) ++ buf.drop (min chunk rem))
        (sink ++ out s (min chunk rem)) (written + min chunk rem)
        (hinv s _ hs) hrem2 (by omega) hbuf2 (by omega)
      have hsum : min chunk rem + (rem - min chunk rem) = rem := by omega
      have ho := hout s (min chunk rem) (rem - min chunk rem) hs hkw hrem2
      have hn := hnxt s (min chunk rem) (rem - min chunk rem) hs hkw hrem2
      rw [hsum] at ho hn
      have htk : (out s (min chunk rem)).take (min chunk rem) = out s (min chunk rem) :=
        List.take_of_length_le (by rw [hlen s _ hkw])
      unfold copyLoop
      rw [if_neg hne]
      simp only [hremaining, hf, htk]
      rw [key, ho, hn, List.append_assoc]

theorem copy_counter (r : CounterReader) (chunk c S : Nat) (hchunk : 0 < chunk)
    (hcw : r.width ∣ chunk) (hc : c < 2 ^ (8 * r.width)) (hS : r.width ∣ S) :
    copy r.Read chunk c S
      = .ok ((c + S / r.width) % 2 ^ (8 * r.width), counterRun r.width c (S / r.width)) := by
  have hM := pow_bits_pos r.width
  have h := copyLoop_spec r.Read r.width chunk S (fun s => s < 2 ^ (8 * r.width))
    (fun s k => counterRun r.width s (k / r.width))
    (fun s k => (s + k / r.width) % 2 ^ (8 * r.width)) hchunk hcw
    (fun s p hs hp => CounterReader_Read_aligned r s p hs (Nat.mod_eq_zero_of_dvd hp))
    (fun s k hk => by
      simp only [counterRun_length]
      exact Nat.mul_div_cancel' hk)
    (fun s k _ => Nat.mod_lt _ hM)
    (fun s a b _ ha _ => by
      simp only []
      rw [Nat.add_div_of_dvd_right ha, counterRun_add, counterRun_mod])
    (fun s a b _ ha _ => by
      simp only []
      rw [Nat.add_div_of_dvd_right ha, Nat.mod_add_mod, Nat.add_assoc])
    (fun s => by simp [counterRun])
    (fun s hs => by simp [Nat.mod_eq_of_lt hs])
    S S c (List.replicate chunk 0) [] 0 hc hS (by simp) (by simp) (Nat.le_refl _)
  simpa [copy] using h

theorem copy_const (fill : Unit → List Nat → ReadResult Unit) (v chunk S : Nat)
    (hfill : ∀ (p : List Nat), fill () p = ⟨(), List.replicate p.length v, p.length, none⟩)
    (hchunk : 0 < chunk) :
    copy fill chunk () S = .ok ((), List.replicate S v) := by
  have h := copyLoop_spec fill 1 chunk S (fun _ => True)
    (fun _ k => List.replicate k v) (fun _ _ => ()) hchunk (Nat.one_dvd _)
    (fun s p _ _ => hfill p)
    (fun s k _ => by simp)
    (fun s k _ => trivial)
    (fun s a b _ _ _ => List.replicate_add a b v)
    (fun s a b _ _ _ => rfl)
    (fun s => by simp)
    (fun s _ => rfl)
    S S () (List.replicate chunk 0) [] 0 trivial (Nat.one_dvd _) (by simp) (by simp)
    (Nat.le_refl _)
  simpa [copy] using h

theorem zeroReader_Read_eq (p : List Nat) :
    zeroReader.Read () p = ⟨(), List.replicate p.length 0x00, p.length, none⟩ := by
  have h0 := foldl_set_const 0 p.length p (Nat.le_refl _)
  simp only [List.drop_length, List.append_nil] at h0
  simp only [zeroReader.Read, h0]

theorem ffReader_Read_eq (p : List Nat) :
    ffReader.Read () p = ⟨(), List.replicate p.length 0xff, p.length, none⟩ := by
  have h1 := foldl_set_const 0xff p.length p (Nat.le_refl _)
  simp only [List.drop_length, List.append_nil] at h1
  simp only [ffReader.Read, h1]

theorem CounterReader_width_dvd_bufSize (r : CounterReader) : r.width ∣ defaultBufSize := by
  cases r <;> decide

theorem parseDigits_suffixLetter (base : Nat) (hb : base ≤ 16) (c : Char) (cs : List Char)
    (n : Nat) (u : Bool) (hc : suffixLetter c) :
    parseDigits base (c :: cs) n u = .error "invalid syntax" := by
  have h20 : 20 ≥ base := by omega
  have h22 : 22 ≥ base := by omega
  rcases hc with rfl | rfl | rfl | rfl <;>
    simp [parseDigits, lower, h20, h22]

theorem parseDigits_tail (base : Nat) (c : Char) (cs : List Char) (n : Nat) (u : Bool)
    (r : Nat × Bool) (h : parseDigits base (c :: cs) n u = .ok r) :
    ∃ (n2 : Nat) (u2 : Bool), parseDigits base cs n2 u2 = .ok r := by
  unfold parseDigits at h
  dsimp only at h
  repeat' split at h
  all_goals first | exact ⟨_, _, h⟩ | cases h

theorem parseDigits_ok_mem (base : Nat) (hb : base ≤ 16) :
    ∀ (cs : List Char) (n : Nat) (u : Bool) (r : Nat × Bool),
      parseDigits base cs n u = .ok r → ∀ c ∈ cs, ¬ suffixLetter c := by
  intro cs
  induction cs with
  | nil => intro _ _ _ _ c hc; cases hc
  | cons a cs ih =>
    intro n u r h c hc hbad
    rcases List.mem_cons.mp hc with rfl | hmem
    · rw [parseDigits_suffixLetter base hb c cs n u hbad] at h
      cases h
    · obtain ⟨n2, u2, h2⟩ := parseDigits_tail base a cs n u r h
      exact ih n2 u2 r h2 c hmem hbad

theorem suffixLetter_lower (c : Char) (hc : suffixLetter c) :
    lower c ≠ 'b'.toNat ∧ lower c ≠ 'o'.toNat ∧ lower c ≠ 'x'.toNat ∧ c ≠ '0' ∧ c ≠ '+' ∧
      c ≠ '-' := by
  rcases hc with rfl | rfl | rfl | rfl <;> decide

theorem basePrefix_le (c0 : Char) (rest : List Char) : (basePrefix c0 rest).1 ≤ 16 := by
  unfold basePrefix
  repeat' split
  all_goals simp

theorem basePrefix_mem (c0 : Char) (rest : List Char) :
    ∀ c ∈ c0 :: rest, c ∈ (basePrefix c0 rest).2 ∨ ¬ suffixLetter c := by
  intro c hc
  by_cases hbad : suffixLetter c
  · left
    obtain ⟨hb, ho, hx, h0, _, _⟩ := suffixLetter_lower c hbad
    unfold basePrefix
    split
    · rename_i hc0
      have hcr : c ∈ rest := by
        rcases List.mem_cons.mp hc with rfl | h
        · exact absurd hc0 h0
        · exact h
      split
      · rename_i c1 c2 t
        have hc1 : c ≠ c1 ∨ True := Or.inr trivial
        split_ifs with h1 h2 h3
        · rcases List.mem_cons.mp hcr with rfl | h
          · exact absurd h1 hb
          · exact h
        · rcases List.mem_cons.mp hcr with rfl | h
          · exact absurd h2 ho
          · exact h
        · rcases List.mem_cons.mp hcr with rfl | h
          · exact absurd h3 hx
          · exact h
        · exact hcr
      · exact hcr
    · exact hc
  · exact Or.inr hbad

theorem ParseUint_ok_mem (s : List Char) (n : Nat) (h : ParseUint s = .ok n) :
    ∀ c ∈ s, ¬ suffixLetter c := by
  have key : ∃ (base : Nat) (body : List Char) (r : Nat × Bool), base ≤ 16 ∧
      parseDigits base body 0 false = .ok r ∧
      ∀ c ∈ s, c ∈ body ∨ ¬ suffixLetter c := by
    unfold ParseUint at h
    split at h
    · cases h
    · rename_i c0 rest
      dsimp only at h
      split at h
      · cases h
      · rename_i n2 u heq
        exact ⟨(basePrefix c0 rest).1, (basePrefix c0 rest).2, (n2, u),
          basePrefix_le c0 rest, heq, basePrefix_mem c0 rest⟩
  obtain ⟨base, body, r, hb, hp, hmem⟩ := key
  intro c hc
  rcases hmem c hc with hin | hno
  · exact parseDigits_ok_mem base hb body 0 false r hp c hin
  · exact hno

theorem ParseInt_ok_mem (s : List Char) (n : Int) (h : ParseInt s = .ok n) :
    ∀ c ∈ s, ¬ suffixLetter c := by
  unfold ParseInt at h
  split at h
  · cases h
  · rename_i c0 rest
    dsimp only at h
    split at h
    · cases h
    · rename_i un heq
      have hu := ParseUint_ok_mem _ un heq
      intro c hc hbad
      obtain ⟨_, _, _, _, hplus, hminus⟩ := suffixLetter_lower c hbad
      split_ifs at hu with hsign
      · rcases List.mem_cons.mp hc with rfl | hr
        · rcases hsign with hs | hs
          · exact hplus hs
          · exact hminus hs
        · exact hu c hr hbad
      · exact hu c hc hbad

theorem HasSuffix_mem (s : List Char) (a b : Char) (h : HasSuffix s [a, b] = true) :
    a ∈ s := by
  simp only [HasSuffix, Bool.and_eq_true, decide_eq_true_eq, beq_iff_eq] at h
  have hmem : a ∈ s.drop (s.length - [a, b].length) := by rw [h.2]; simp
  exact List.mem_of_mem_drop hmem

theorem HasSuffix_append (s : List Char) (a b : Char) :
    HasSuffix (s ++ [a, b]) [a, b] = true := by
  simp [HasSuffix]

theorem HasSuffix_append_ne (s : List Char) (a b c d : Char) (h : [a, b] ≠ [c, d]) :
    HasSuffix (s ++ [a, b]) [c, d] = false := by
  simp only [HasSuffix, List.length_append, List.length_cons, List.length_nil,
    Nat.add_sub_cancel, List.drop_left, beq_iff_eq]
  simp only [Bool.and_eq_false_iff, decide_eq_false_iff_not, beq_eq_false_iff_ne]
  exact Or.inr h

theorem wrapInt64_of_small (x : Int) (h0 : 0 ≤ x) (h1 : x ≤ 2 ^ 30) : wrapInt64 x = x := by
  unfold wrapInt64
  norm_num at h1 ⊢
  omega

theorem sizeStage_of_factor (sizeArg lit : List Char) (factor n : Int)
    (hfs : (if HasSuffix sizeArg "KB".toList || HasSuffix sizeArg "kb".toList then
        (kb, sizeArg.take (sizeArg.length - 2))
      else if HasSuffix sizeArg "MB".toList || HasSuffix sizeArg "mb".toList then
        (mb, sizeArg.take (sizeArg.length - 2))
      else ((1 : Int), sizeArg)) = (factor, lit))
    (hlit : ParseInt lit = .ok n) (hn : 0 ≤ n) (hf : 0 ≤ factor)
    (hle : n * factor ≤ 2 ^ 30) :
    sizeStage sizeArg = .ok (n * factor) := by
  have hw : wrapInt64 (n * factor) = n * factor :=
    wrapInt64_of_small _ (Int.mul_nonneg hn hf) hle
  have hmax : ¬ n * factor > maxFileSize := by
    have : maxFileSize = 2 ^ 30 := by decide
    rw [this]; omega
  unfold sizeStage
  simp only [hfs, hlit, hw]
  rw [if_neg (by omega), if_neg hmax]

theorem take_append_two (lit : List Char) (a b : Char) :
    (lit ++ [a, b]).take ((lit ++ [a, b]).length - 2) = lit := by
  simp

/-! ## The claims -/

/-- C1: for each counter reader of width W, every counter value c of its type
and every buffer p whose length L is a multiple of W, `Read(p)` returns
`(L, nil)`, leaves the length of p unchanged, writes as k-th W-byte unit
(k < L/W) the big-endian encoding of (c + k) mod 2^(8W), and leaves the counter
at (c + L/W) mod 2^(8W). -/
theorem counter_read_aligned (r : CounterReader) (c : Nat) (p : List Nat)
    (hc : c < 2 ^ (8 * r.width)) (hp : p.length % r.width = 0) :
    (r.Read c p).n = p.length ∧ (r.Read c p).err = none ∧
    (r.Read c p).p.length = p.length ∧
    (∀ k, k < p.length / r.width →
      unitAt r.width (r.Read c p).p k = bigEndian r.width ((c + k) % 2 ^ (8 * r.width))) ∧
    (r.Read c p).state = (c + p.length / r.width) % 2 ^ (8 * r.width) := by
  rw [CounterReader_Read_aligned r c p hc hp]
  refine ⟨rfl, rfl, ?_, ?_, rfl⟩
  · simp only [counterRun_length]
    have := Nat.div_add_mod p.length r.width
    omega
  · intro k hk
    exact unitAt_counterRun r.width c _ k hk

theorem counter_read_aligned_witness :
    65535 < 2 ^ (8 * CounterReader.uint16.width) ∧
    [9, 9, 9, 9].length % CounterReader.uint16.width = 0 ∧
    (CounterReader.uint16.Read 65535 [9, 9, 9, 9]).n = [9, 9, 9, 9].length ∧
    (CounterReader.uint16.Read 65535 [9, 9, 9, 9]).err = none ∧
    (CounterReader.uint16.Read 65535 [9, 9, 9, 9]).p.length = [9, 9, 9, 9].length ∧
    (∀ k, k < [9, 9, 9, 9].length / CounterReader.uint16.width →
      unitAt CounterReader.uint16.width (CounterReader.uint16.Read 65535 [9, 9, 9, 9]).p k
        = bigEndian CounterReader.uint16.width
            ((65535 + k) % 2 ^ (8 * CounterReader.uint16.width))) ∧
    (CounterReader.uint16.Read 65535 [9, 9, 9, 9]).state
      = (65535 + [9, 9, 9, 9].length / CounterReader.uint16.width)
          % 2 ^ (8 * CounterReader.uint16.width) :=
  ⟨by decide, by decide,
    counter_read_aligned CounterReader.uint16 65535 [9, 9, 9, 9] (by decide) (by decide)⟩

/-- C3: for a multi-byte counter reader (width 2, 4 or 8), every counter value
c and every buffer whose length is not a multiple of the width, `Read` returns
byte count 0 and a non-nil error, and the counter is still c afterwards (the
buffer is untouched as well). -/
theorem counter_read_misaligned (r : CounterReader) (c : Nat) (p : List Nat)
    (hp : p.length % r.width ≠ 0) :
    (r.Read c p).n = 0 ∧ (r.Read c p).err ≠ none ∧ (r.Read c p).state = c ∧
    (r.Read c p).p = p := by
  obtain ⟨msg, h⟩ := CounterReader_Read_misaligned r c p hp
  rw [h]
  simp

theorem counter_read_misaligned_witness :
    [9, 9, 9].length % CounterReader.uint32.width ≠ 0 ∧
    (CounterReader.uint32.Read 7 [9, 9, 9]).n = 0 ∧
    (CounterReader.uint32.Read 7 [9, 9, 9]).err ≠ none ∧
    (CounterReader.uint32.Read 7 [9, 9, 9]).state = 7 ∧
    (CounterReader.uint32.Read 7 [9, 9, 9]).p = [9, 9, 9] :=
  ⟨by decide, counter_read_misaligned CounterReader.uint32 7 [9, 9, 9] (by decide)⟩

/-- C7: for every buffer p (any length, any prior contents) `(*zeroReader).Read`
returns `(len(p), nil)` with every byte of p equal to 0x00, and
`(*ffReader).Read` returns `(len(p), nil)` with every byte equal to 0xFF. -/
theorem constant_read (p : List Nat) :
    (zeroReader.Read () p).n = p.length ∧ (zeroReader.Read () p).err = none ∧
    (zeroReader.Read () p).p = List.replicate p.length 0x00 ∧
    (ffReader.Read () p).n = p.length ∧ (ffReader.Read () p).err = none ∧
    (ffReader.Read () p).p = List.replicate p.length 0xff := by
  have h0 := foldl_set_const 0 p.length p (Nat.le_refl _)
  have h1 := foldl_set_const 0xff p.length p (Nat.le_refl _)
  simp only [List.drop_length, List.append_nil] at h0 h1
  simp only [zeroReader.Read, ffReader.Read, h0, h1]
  simp


/-- C4: for each counter reader and every counter value c (in particular one
reached by any sequence of Reads), `Reset()` sets the counter to 0, and a
following `Read` of a buffer p whose length is a multiple of the width gives
the same result (bytes, count, error, counter) as the same `Read` on a freshly
constructed reader: the k-th unit is the big-endian encoding of k mod 2^(8W). -/
theorem reset_then_read (r : CounterReader) (c : Nat) (p : List Nat)
    (hp : p.length % r.width = 0) :
    r.Reset c = 0 ∧
    r.Read (r.Reset c) p = r.Read r.fresh p ∧
    (r.Read (r.Reset c) p).n = p.length ∧ (r.Read (r.Reset c) p).err = none ∧
    (r.Read (r.Reset c) p).p = counterRun r.width 0 (p.length / r.width) ∧
    (∀ k, k < p.length / r.width →
      unitAt r.width (r.Read (r.Reset c) p).p k = bigEndian r.width (k % 2 ^ (8 * r.width))) := by
  have h0 : r.Reset c = 0 := by cases r <;> rfl
  have hf : r.fresh = 0 := rfl
  rw [h0, hf, CounterReader_Read_aligned r 0 p (pow_bits_pos _) hp]
  refine ⟨rfl, rfl, rfl, rfl, rfl, ?_⟩
  intro k hk
  simpa using unitAt_counterRun r.width 0 _ k hk

theorem reset_then_read_witness :
    [9, 9, 9, 9].length % CounterReader.uint16.width = 0 ∧
    CounterReader.uint16.Reset 513 = 0 ∧
    CounterReader.uint16.Read (CounterReader.uint16.Reset 513) [9, 9, 9, 9]
      = CounterReader.uint16.Read CounterReader.uint16.fresh [9, 9, 9, 9] ∧
    (CounterReader.uint16.Read (CounterReader.uint16.Reset 513) [9, 9, 9, 9]).n
      = [9, 9, 9, 9].length ∧
    (CounterReader.uint16.Read (CounterReader.uint16.Reset 513) [9, 9, 9, 9]).err = none ∧
    (CounterReader.uint16.Read (CounterReader.uint16.Reset 513) [9, 9, 9, 9]).p
      = counterRun CounterReader.uint16.width 0
          ([9, 9, 9, 9].length / CounterReader.uint16.width) ∧
    (∀ k, k < [9, 9, 9, 9].length / CounterReader.uint16.width →
      unitAt CounterReader.uint16.width
        (CounterReader.uint16.Read (CounterReader.uint16.Reset 513) [9, 9, 9, 9]).p k
        = bigEndian CounterReader.uint16.width (k % 2 ^ (8 * CounterReader.uint16.width))) :=
  ⟨by decide, reset_then_read CounterReader.uint16 513 [9, 9, 9, 9] (by decide)⟩

/-- C2: chunking-invariance. For each counter reader of width W and buffers
p1..pm whose lengths are multiples of W, and a buffer q of length
S = len(p1)+...+len(pm): m successive Reads on a reader whose counter starts at 0
all succeed with full count, the concatenation of the buffers they fill equals
the buffer filled by one Read of q, the k-th W-byte unit of which decodes
big-endian to k mod 2^(8W), and the final counter is the same in both cases. -/
theorem chunking_invariance (r : CounterReader) (ps : List (List Nat)) (q : List Nat)
    (hps : ∀ p ∈ ps, p.length % r.width = 0)
    (hq : q.length = (ps.map List.length).sum) :
    (∀ res ∈ (r.readAll 0 ps).2, res.err = none) ∧
    (r.readAll 0 ps).2.map (fun res => res.n) = ps.map List.length ∧
    (r.Read 0 q).err = none ∧ (r.Read 0 q).n = q.length ∧
    ((r.readAll 0 ps).2.map (fun res => res.p)).flatten = (r.Read 0 q).p ∧
    (r.Read 0 q).p.length = q.length ∧
    (∀ k, k < q.length / r.width →
      unitAt r.width (r.Read 0 q).p k = bigEndian r.width (k % 2 ^ (8 * r.width)) ∧
      decodeBE (unitAt r.width (r.Read 0 q).p k) = k % 2 ^ (8 * r.width)) ∧
    (r.readAll 0 ps).1 = (r.Read 0 q).state := by
  have hM := pow_bits_pos r.width
  obtain ⟨h1, h2, h3, h4⟩ := CounterReader_readAll_aligned r ps 0 hM hps
  have hdvd : ∀ (l : List (List Nat)), (∀ p ∈ l, p.length % r.width = 0) →
      (l.map List.length).sum % r.width = 0 := by
    intro l
    induction l with
    | nil => intro _; simp
    | cons a l ih =>
      intro h
      have ha := h a (List.mem_cons_self _ _)
      have hl := ih (fun p hp => h p (List.mem_cons_of_mem _ hp))
      simp only [List.map_cons, List.sum_cons]
      rw [Nat.add_mod, ha, hl]
      simp
  have hqa : q.length % r.width = 0 := by rw [hq]; exact hdvd ps hps
  rw [CounterReader_Read_aligned r 0 q hM hqa]
  refine ⟨h2, h3, rfl, rfl, ?_, ?_, ?_, ?_⟩
  · rw [h4, hq]
  · simp only [counterRun_length]
    have := Nat.div_add_mod q.length r.width
    omega
  · intro k hk
    have hu := unitAt_counterRun r.width 0 _ k hk
    simp only [Nat.zero_add] at hu
    refine ⟨hu, ?_⟩
    simp only []
    rw [hu]
    exact decodeBE_bigEndian r.width _ (Nat.mod_lt _ hM)
  · rw [h1, hq]


theorem chunking_invariance_witness :
    (∀ p ∈ [[9, 9], [8, 8, 8, 8]], p.length % CounterReader.uint16.width = 0) ∧
    [7, 7, 7, 7, 7, 7].length = ([[9, 9], [8, 8, 8, 8]].map List.length).sum ∧
    ((∀ res ∈ (CounterReader.uint16.readAll 0 [[9, 9], [8, 8, 8, 8]]).2, res.err = none) ∧
    (CounterReader.uint16.readAll 0 [[9, 9], [8, 8, 8, 8]]).2.map (fun res => res.n)
      = [[9, 9], [8, 8, 8, 8]].map List.length ∧
    (CounterReader.uint16.Read 0 [7, 7, 7, 7, 7, 7]).err = none ∧
    (CounterReader.uint16.Read 0 [7, 7, 7, 7, 7, 7]).n = [7, 7, 7, 7, 7, 7].length ∧
    ((CounterReader.uint16.readAll 0 [[9, 9], [8, 8, 8, 8]]).2.map (fun res => res.p)).flatten
      = (CounterReader.uint16.Read 0 [7, 7, 7, 7, 7, 7]).p ∧
    (CounterReader.uint16.Read 0 [7, 7, 7, 7, 7, 7]).p.length = [7, 7, 7, 7, 7, 7].length ∧
    (∀ k, k < [7, 7, 7, 7, 7, 7].length / CounterReader.uint16.width →
      unitAt CounterReader.uint16.width (CounterReader.uint16.Read 0 [7, 7, 7, 7, 7, 7]).p k
        = bigEndian CounterReader.uint16.width (k % 2 ^ (8 * CounterReader.uint16.width)) ∧
      decodeBE (unitAt CounterReader.uint16.width
        (CounterReader.uint16.Read 0 [7, 7, 7, 7, 7, 7]).p k)
        = k % 2 ^ (8 * CounterReader.uint16.width)) ∧
    (CounterReader.uint16.readAll 0 [[9, 9], [8, 8, 8, 8]]).1
      = (CounterReader.uint16.Read 0 [7, 7, 7, 7, 7, 7]).state) :=
  ⟨by decide, by decide,
    chunking_invariance CounterReader.uint16 [[9, 9], [8, 8, 8, 8]] [7, 7, 7, 7, 7, 7]
      (by decide) (by decide)⟩

/-- C8: wraparound. For each counter reader of width W whose counter holds the
maximum 2^(8W)-1, a `Read` of 2*W bytes returns `(2*W, nil)`, writes W bytes
0xFF followed by W bytes 0x00 and leaves the counter at 1; and from a counter
value within [0, 2^(8W)-1] every `Read` (aligned or not) and every `Reset`
leaves the counter within [0, 2^(8W)-1]. -/
theorem counter_wraparound (r : CounterReader) (p : List Nat)
    (hp : p.length = 2 * r.width) :
    r.Read (2 ^ (8 * r.width) - 1) p
      = ⟨1, List.replicate r.width 0xff ++ List.replicate r.width 0x00, 2 * r.width, none⟩ ∧
    (∀ (c : Nat) (q : List Nat), c < 2 ^ (8 * r.width) →
      (r.Read c q).state < 2 ^ (8 * r.width) ∧ r.Reset c < 2 ^ (8 * r.width)) := by
  have hM := pow_bits_pos r.width
  have hw := CounterReader_width_pos r
  constructor
  · have hal : p.length % r.width = 0 := by rw [hp]; simp
    have hdiv : p.length / r.width = 2 := by
      rw [hp]; exact Nat.mul_div_cancel 2 hw
    rw [CounterReader_Read_aligned r _ p (by omega) hal, hdiv, counterRun_wrap, hp]
    have h1 : (2 ^ (8 * r.width) - 1 + 2) % 2 ^ (8 * r.width) = 1 := by
      cases r <;> decide
    rw [h1]
  · intro c q hc
    refine ⟨?_, ?_⟩
    · by_cases hq : q.length % r.width = 0
      · rw [CounterReader_Read_aligned r c q hc hq]
        exact Nat.mod_lt _ hM
      · obtain ⟨msg, h⟩ := CounterReader_Read_misaligned r c q hq
        rw [h]; exact hc
    · have h0 : r.Reset c = 0 := by cases r <;> rfl
      rw [h0]; exact hM

theorem counter_wraparound_witness :
    (List.replicate 16 7).length = 2 * CounterReader.uint64.width ∧
    (CounterReader.uint64.Read (2 ^ (8 * CounterReader.uint64.width) - 1) (List.replicate 16 7)
      = ⟨1, List.replicate CounterReader.uint64.width 0xff
            ++ List.replicate CounterReader.uint64.width 0x00,
          2 * CounterReader.uint64.width, none⟩ ∧
    (∀ (c : Nat) (q : List Nat), c < 2 ^ (8 * CounterReader.uint64.width) →
      (CounterReader.uint64.Read c q).state < 2 ^ (8 * CounterReader.uint64.width) ∧
      CounterReader.uint64.Reset c < 2 ^ (8 * CounterReader.uint64.width))) :=
  ⟨by decide, counter_wraparound CounterReader.uint64 (List.replicate 16 7) (by decide)⟩

/-- C5: end-to-end counter copy. For each counter reader of width W and every
size S in [0, 2^30] that is a multiple of W, the copy of S bytes as `main` runs
it, from a reader whose counter is 0, succeeds and the sink receives exactly S
bytes whose k-th W-byte unit is the big-endian encoding of k mod 2^(8W); and
pattern key `ctr2` with size argument `6` resolves to the uint16 counter reader
and size 6 and yields exactly the bytes 00 00 00 01 00 02. -/
theorem counter_copy (r : CounterReader) (S : Nat) (hS : S ≤ 2 ^ 30)
    (hal : S % r.width = 0) :
    (∃ sink : List Nat,
      CopyN r.Read r.fresh S = .ok ((S / r.width) % 2 ^ (8 * r.width), sink) ∧
      sink.length = S ∧
      (∀ k, k < S / r.width →
        unitAt r.width sink k = bigEndian r.width (k % 2 ^ (8 * r.width)))) ∧
    lookupReader dataOptionList "ctr2" = some (Reader.counter CounterReader.uint16) ∧
    sizeStage "6".toList = .ok 6 ∧
    CopyN CounterReader.uint16.Read CounterReader.uint16.fresh 6
      = .ok (3, [0x00, 0x00, 0x00, 0x01, 0x00, 0x02]) := by
  have _hS := hS
  have hdvd : r.width ∣ S := Nat.dvd_of_mod_eq_zero hal
  have h := copy_counter r defaultBufSize 0 S (by decide) (CounterReader_width_dvd_bufSize r)
    (pow_bits_pos _) hdvd
  refine ⟨⟨counterRun r.width 0 (S / r.width), ?_, ?_, ?_⟩, by decide, by decide, by decide⟩
  · simpa [CopyN, CounterReader.fresh] using h
  · rw [counterRun_length]; exact Nat.mul_div_cancel' hdvd
  · intro k hk
    simpa using unitAt_counterRun r.width 0 _ k hk

theorem counter_copy_witness :
    6 ≤ 2 ^ 30 ∧ 6 % CounterReader.uint16.width = 0 ∧
    ((∃ sink : List Nat,
      CopyN CounterReader.uint16.Read CounterReader.uint16.fresh 6
        = .ok ((6 / CounterReader.uint16.width) % 2 ^ (8 * CounterReader.uint16.width), sink) ∧
      sink.length = 6 ∧
      (∀ k, k < 6 / CounterReader.uint16.width →
        unitAt CounterReader.uint16.width sink k
          = bigEndian CounterReader.uint16.width
              (k % 2 ^ (8 * CounterReader.uint16.width)))) ∧
    lookupReader dataOptionList "ctr2" = some (Reader.counter CounterReader.uint16) ∧
    sizeStage "6".toList = .ok 6 ∧
    CopyN CounterReader.uint16.Read CounterReader.uint16.fresh 6
      = .ok (3, [0x00, 0x00, 0x00, 0x01, 0x00, 0x02])) :=
  ⟨by decide, by decide, counter_copy CounterReader.uint16 6 (by decide) (by decide)⟩

/-- C6: end-to-end constant copy. For every size S in [0, 2^30] the copy of S
bytes as `main` runs it from `ZeroReader` and from `FfReader` succeeds and the
sink receives exactly S bytes, every one equal to 0x00 and to 0xFF
respectively. -/
theorem constant_copy (S : Nat) (hS : S ≤ 2 ^ 30) :
    CopyN zeroReader.Read () S = .ok ((), List.replicate S 0x00) ∧
    CopyN ffReader.Read () S = .ok ((), List.replicate S 0xff) ∧
    (List.replicate S 0x00).length = S ∧ (List.replicate S 0xff).length = S := by
  have _hS := hS
  refine ⟨?_, ?_, by simp, by simp⟩
  · exact copy_const zeroReader.Read 0 defaultBufSize S zeroReader_Read_eq (by decide)
  · exact copy_const ffReader.Read 0xff defaultBufSize S ffReader_Read_eq (by decide)

theorem constant_copy_witness :
    5 ≤ 2 ^ 30 ∧
    (CopyN zeroReader.Read () 5 = .ok ((), List.replicate 5 0x00) ∧
    CopyN ffReader.Read () 5 = .ok ((), List.replicate 5 0xff) ∧
    (List.replicate 5 0x00).length = 5 ∧ (List.replicate 5 0xff).length = 5) :=
  ⟨by decide, constant_copy 5 (by decide)⟩

/-- C10: size parsing. For every numeric literal that `strconv.ParseInt(_, 0, 64)`
accepts with value n >= 0, the computed size is n*1024 for the literal followed
by `KB` or `kb`, n*1024*1024 for the literal followed by `MB` or `mb`, and n for
the literal alone, whenever that product is at most 2^30; in particular `10KB`
gives 10240, `2MB` gives 2097152 and `0x10` gives 16. -/
theorem size_parsing (lit : List Char) (n : Int) (hlit : ParseInt lit = .ok n)
    (hn : 0 ≤ n) :
    (n * 1024 ≤ 2 ^ 30 →
      sizeStage (lit ++ "KB".toList) = .ok (n * 1024) ∧
      sizeStage (lit ++ "kb".toList) = .ok (n * 1024)) ∧
    (n * 1024 * 1024 ≤ 2 ^ 30 →
      sizeStage (lit ++ "MB".toList) = .ok (n * 1024 * 1024) ∧
      sizeStage (lit ++ "mb".toList) = .ok (n * 1024 * 1024)) ∧
    (n ≤ 2 ^ 30 → sizeStage lit = .ok n) ∧
    sizeStage "10KB".toList = .ok 10240 ∧
    sizeStage "2MB".toList = .ok 2097152 ∧
    sizeStage "0x10".toList = .ok 16 := by
  have hKB : "KB".toList = ['K', 'B'] := rfl
  have hkb : "kb".toList = ['k', 'b'] := rfl
  have hMB : "MB".toList = ['M', 'B'] := rfl
  have hmb : "mb".toList = ['m', 'b'] := rfl
  have hmem := ParseInt_ok_mem lit n hlit
  refine ⟨?_, ?_, ?_, by decide, by decide, by decide⟩
  · intro hle
    constructor
    · have h := sizeStage_of_factor (lit ++ "KB".toList) lit kb n
        (by rw [hKB, hkb, HasSuffix_append, take_append_two]; rfl) hlit hn (by decide)
        (by simpa [kb] using hle)
      simpa [kb] using h
    · have h := sizeStage_of_factor (lit ++ "kb".toList) lit kb n
        (by rw [hKB, hkb, HasSuffix_append, take_append_two]; simp) hlit hn (by decide)
        (by simpa [kb] using hle)
      simpa [kb] using h
  · intro hle
    have hmbv : n * mb = n * 1024 * 1024 := by simp [mb, kb]; ring
    constructor
    · have h := sizeStage_of_factor (lit ++ "MB".toList) lit mb n
        (by
          rw [hKB, hkb, hMB, hmb, HasSuffix_append, take_append_two,
            HasSuffix_append_ne lit 'M' 'B' 'K' 'B' (by decide),
            HasSuffix_append_ne lit 'M' 'B' 'k' 'b' (by decide)]
          rfl) hlit hn (by decide) (by rw [hmbv]; exact hle)
      rw [hmbv] at h; exact h
    · have h := sizeStage_of_factor (lit ++ "mb".toList) lit mb n
        (by
          rw [hKB, hkb, hMB, hmb, HasSuffix_append, take_append_two,
            HasSuffix_append_ne lit 'm' 'b' 'K' 'B' (by decide),
            HasSuffix_append_ne lit 'm' 'b' 'k' 'b' (by decide),
            HasSuffix_append_ne lit 'm' 'b' 'M' 'B' (by decide)]
          rfl) hlit hn (by decide) (by rw [hmbv]; exact hle)
      rw [hmbv] at h; exact h
  · intro hle
    have hno : ∀ (a b : Char), suffixLetter a → HasSuffix lit [a, b] = false := by
      intro a b ha
      cases hs : HasSuffix lit [a, b] with
      | false => rfl
      | true => exact absurd ha (hmem a (HasSuffix_mem lit a b hs))
    have h := sizeStage_of_factor lit lit 1 n
      (by
        rw [hKB, hkb, hMB, hmb, hno 'K' 'B' (Or.inl rfl), hno 'k' 'b' (Or.inr (Or.inl rfl)),
          hno 'M' 'B' (Or.inr (Or.inr (Or.inl rfl))), hno 'm' 'b' (Or.inr (Or.inr (Or.inr rfl)))]
        rfl) hlit hn (by decide) (by simpa using hle)
    simpa using h

theorem size_parsing_witness :
    ParseInt "0x10".toList = .ok 16 ∧ (0 : Int) ≤ 16 ∧
    (((16 : Int) * 1024 ≤ 2 ^ 30 →
      sizeStage ("0x10".toList ++ "KB".toList) = .ok (16 * 1024) ∧
      sizeStage ("0x10".toList ++ "kb".toList) = .ok (16 * 1024)) ∧
    ((16 : Int) * 1024 * 1024 ≤ 2 ^ 30 →
      sizeStage ("0x10".toList ++ "MB".toList) = .ok (16 * 1024 * 1024) ∧
      sizeStage ("0x10".toList ++ "mb".toList) = .ok (16 * 1024 * 1024)) ∧
    ((16 : Int) ≤ 2 ^ 30 → sizeStage "0x10".toList = .ok 16) ∧
    sizeStage "10KB".toList = .ok 10240 ∧
    sizeStage "2MB".toList = .ok 2097152 ∧
    sizeStage "0x10".toList = .ok 16) :=
  ⟨by decide, by decide, size_parsing "0x10".toList 16 (by decide) (by decide)⟩

/-- C9 (the code at the failing input): the size argument `17592186044417MB` has
the valid literal 17592186044417 = 2^44 + 1 and factor 1024*1024, an exact
product of 2^64 + 2^20 bytes, far above 1,073,741,824; the `int64`
multiplication of main.go:109 wraps it to 1048576, which passes the check against
`maxFileSize`, so the request is accepted with the wrapped size. -/
theorem size_limit_overflow :
    ParseInt "17592186044417".toList = .ok 17592186044417 ∧
    (17592186044417 : Int) * (1024 * 1024) > 1073741824 ∧
    sizeStage "17592186044417MB".toList = .ok 1048576 := by
  decide

/-! ## Lemmas on the lookup -/

theorem foldl_lookup_eq (key : String) :
    ∀ (list : List dataOption) (init : Option Reader),
      list.foldl (fun (reader : Option Reader) (d : dataOption) =>
        if d.Key = key then some d.reader else reader) init
        = (lastMatch list key).or init := by
  intro list
  induction list with
  | nil => intro init; simp [lastMatch]
  | cons a l ih =>
    intro init
    rw [List.foldl_cons, ih]
    simp only [lastMatch, List.reverse_cons, List.find?_append]
    cases hfind : (l.reverse.find? (fun d => d.Key == key)) with
    | some d => simp
    | none =>
      by_cases hk : a.Key = key
      · simp [hk]
      · simp [hk]

theorem lookupReader_eq_lastMatch (list : List dataOption) (key : String) (hkey : key ≠ "") :
    lookupReader list key = lastMatch list key := by
  unfold lookupReader
  rw [if_neg hkey, foldl_lookup_eq]
  cases lastMatch list key <;> rfl

theorem lastMatch_eq_none (list : List dataOption) (key : String)
    (h : ∀ d ∈ list, d.Key ≠ key) : lastMatch list key = none := by
  unfold lastMatch
  rw [Option.map_eq_none', List.find?_eq_none]
  intro d hd
  simpa using h d (List.mem_reverse.mp hd)

theorem lastMatch_eq_firstMatch (key : String) :
    ∀ (list : List dataOption), (list.map (fun d => d.Key)).Nodup →
      lastMatch list key = firstMatch list key := by
  intro list
  induction list with
  | nil => intro _; rfl
  | cons a l ih =>
    intro hnd
    rw [List.map_cons, List.nodup_cons] at hnd
    have hl := ih hnd.2
    by_cases hk : a.Key = key
    · have hnone : lastMatch l key = none := by
        apply lastMatch_eq_none
        intro d hd hdk
        exact hnd.1 (List.mem_map.mpr ⟨d, hd, by rw [hdk, hk]⟩)
      unfold lastMatch at hnone ⊢
      rw [Option.map_eq_none'] at hnone
      simp [firstMatch, List.find?_append, hnone, hk]
    · unfold lastMatch firstMatch at hl ⊢
      have hb : (a.Key == key) = false := by simpa using hk
      simp only [List.reverse_cons, List.find?_append, List.find?_cons, List.find?_nil, hb]
      rw [← hl]
      cases l.reverse.find? (fun d => d.Key == key) <;> simp

/-! ## Lemmas on the random readers -/

theorem drawBytes_length (f : Rand → Rand × Nat) (n : Nat) (g : Rand) :
    (drawBytes f n g).2.length = n := by
  induction n with
  | zero => rfl
  | succ n ih => simp [drawBytes, ih]

theorem drawBytes_forall (f : Rand → Rand × Nat) (P : Nat → Prop) (hP : ∀ g, P (f g).2)
    (n : Nat) (g : Rand) : ∀ b ∈ (drawBytes f n g).2, P b := by
  induction n with
  | zero => intro b hb; simp [drawBytes] at hb
  | succ n ih =>
    intro b hb
    simp only [drawBytes, List.mem_append, List.mem_singleton] at hb
    rcases hb with hb | rfl
    · exact ih b hb
    · exact hP _

theorem foldl_set_draw (f : Rand → Rand × Nat) (g : Rand) :
    ∀ (k : Nat) (p : List Nat), k ≤ p.length →
      (List.range k).foldl
        (fun (s : Rand × List Nat) (i : Nat) => ((f s.1).1, s.2.set i (f s.1).2)) (g, p)
        = ((drawBytes f k g).1, (drawBytes f k g).2 ++ p.drop k) := by
  intro k
  induction k with
  | zero => intro p _; simp [drawBytes]
  | succ k ih =>
    intro p hk
    rw [List.range_succ, List.foldl_append, ih p (by omega)]
    simp only [List.foldl_cons, List.foldl_nil]
    have hd : p.drop k = p[k] :: p.drop (k + 1) := by
      rw [List.drop_eq_getElem_cons]
    rw [hd, set_append_cons _ _ _ _ _ (drawBytes_length f k g)]
    simp [drawBytes]

theorem randAlphabetReader_Read_eq (g : Rand) (p : List Nat) :
    randAlphabetReader.Read g p
      = ⟨(drawBytes randAlphabetByte p.length g).1, (drawBytes randAlphabetByte p.length g).2,
          p.length, none⟩ := by
  have h := foldl_set_draw randAlphabetByte g p.length p (Nat.le_refl _)
  simp only [List.drop_length, List.append_nil] at h
  simp only [randAlphabetReader.Read, h]

theorem randAlphaNumericReader_Read_eq (g : Rand) (p : List Nat) :
    randAlphaNumericReader.Read g p
      = ⟨(drawBytes randAlphaNumericByte p.length g).1,
          (drawBytes randAlphaNumericByte p.length g).2, p.length, none⟩ := by
  have h := foldl_set_draw randAlphaNumericByte g p.length p (Nat.le_refl _)
  simp only [List.drop_length, List.append_nil] at h
  simp only [randAlphaNumericReader.Read, h]

theorem RandReader_Read_eq (g : Rand) (p : List Nat) :
    RandReader.Read g p
      = ⟨(drawBytes randByte p.length g).1, (drawBytes randByte p.length g).2,
          p.length, none⟩ := by
  have h := foldl_set_draw randByte g p.length p (Nat.le_refl _)
  simp only [List.drop_length, List.append_nil] at h
  simp only [RandReader.Read, h]

theorem randAlphabetByte_cases (g : Rand) :
    ∃ a b, a < 25 ∧ b < 2 ∧ (randAlphabetByte g).2 = 65 + a + 32 * b := by
  refine ⟨g.draws g.pos % 25, g.draws (g.pos + 1) % 2, Nat.mod_lt _ (by decide),
    Nat.mod_lt _ (by decide), ?_⟩
  have h1 : g.draws g.pos % 25 < 25 := Nat.mod_lt _ (by decide)
  have h2 : g.draws (g.pos + 1) % 2 < 2 := Nat.mod_lt _ (by decide)
  simp only [randAlphabetByte, Rand.Intn]
  have e1 : 'Z'.toNat - 'A'.toNat = 25 := by decide
  have e2 : 'a'.toNat - 'A'.toNat = 32 := by decide
  have e3 : 'A'.toNat = 65 := by decide
  rw [e1, e2, e3]
  omega

theorem randAlphabetByte_isLetter (g : Rand) : isLetter (randAlphabetByte g).2 := by
  obtain ⟨a, b, ha, hb, h⟩ := randAlphabetByte_cases g
  rw [h]
  have e1 : 'Z'.toNat = 90 := by decide
  have e2 : 'a'.toNat = 97 := by decide
  have e3 : 'A'.toNat = 65 := by decide
  have e4 : 'z'.toNat = 122 := by decide
  unfold isLetter
  rw [e1, e2, e3, e4]
  omega

theorem randAlphabetByte_ne (g : Rand) :
    (randAlphabetByte g).2 ≠ 'Z'.toNat ∧ (randAlphabetByte g).2 ≠ 'z'.toNat := by
  obtain ⟨a, b, ha, hb, h⟩ := randAlphabetByte_cases g
  rw [h]
  have e1 : 'Z'.toNat = 90 := by decide
  have e4 : 'z'.toNat = 122 := by decide
  rw [e1, e4]
  omega

theorem alphanumeric_length : alphanumeric.length = 36 := by decide

theorem alphanumericAt_upper (i : Nat) (hi : i < 36) :
    ∃ c, alphanumericAt i = some c ∧ isUpperAlphaNumeric c := by
  interval_cases i <;> exact ⟨_, rfl, by unfold isUpperAlphaNumeric; decide⟩

theorem alphanumericAt_injective (i j : Nat) (hi : i < 36) (hj : j < 36)
    (h : alphanumericAt i = alphanumericAt j) : i = j := by
  have key : ∀ i, i < 36 → ∀ j, j < 36 → alphanumericAt i = alphanumericAt j → i = j := by
    decide
  exact key i hi j hj h

theorem alphanumericAt_surjective (c : Nat) (hc : isUpperAlphaNumeric c) :
    ∃ i, i < 36 ∧ alphanumericAt i = some c := by
  have e0 : '0'.toNat = 48 := by decide
  have e9 : '9'.toNat = 57 := by decide
  have eA : 'A'.toNat = 65 := by decide
  have eZ : 'Z'.toNat = 90 := by decide
  unfold isUpperAlphaNumeric at hc
  rw [e0, e9, eA, eZ] at hc
  rcases hc with ⟨h1, h2⟩ | ⟨h1, h2⟩
  · refine ⟨c - 48, by omega, ?_⟩
    interval_cases c <;> rfl
  · refine ⟨c - 55, by omega, ?_⟩
    interval_cases c <;> rfl

theorem randAlphaNumericByte_upper (g : Rand) :
    isUpperAlphaNumeric (randAlphaNumericByte g).2 := by
  have hlt : g.draws g.pos % alphanumeric.length < 36 := by
    rw [alphanumeric_length]; exact Nat.mod_lt _ (by decide)
  obtain ⟨c, hc, hup⟩ := alphanumericAt_upper _ hlt
  simp only [randAlphaNumericByte, Rand.Intn, hc, Option.getD_some]
  exact hup

/-! ## Lemmas on the copy of a misaligned size -/

theorem copy_zero {σ : Type} (fill : σ → List Nat → ReadResult σ) (chunk : Nat) (st : σ) :
    copy fill chunk st 0 = .ok (st, []) := by
  simp [copy, copyLoop]

theorem CounterReader_Read_lengthError (r : CounterReader) (c : Nat) (p : List Nat)
    (hp : p.length % r.width ≠ 0) :
    ∃ msg, r.lengthError = some msg ∧ r.Read c p = ⟨c, p, 0, some msg⟩ := by
  cases r with
  | byte => simp [CounterReader.width, Nat.mod_one] at hp
  | uint16 =>
    simp only [CounterReader.width] at hp
    exact ⟨_, rfl, by simp [CounterReader.Read, Uint16CounterReader.Read, hp]⟩
  | uint32 =>
    simp only [CounterReader.width] at hp
    exact ⟨_, rfl, by simp [CounterReader.Read, Uint32CounterReader.Read, hp]⟩
  | uint64 =>
    simp only [CounterReader.width] at hp
    exact ⟨_, rfl, by simp [CounterReader.Read, Uint64CounterReader.Read, hp]⟩

theorem copyLoop_misaligned (r : CounterReader) (chunk total : Nat) (hchunk : 0 < chunk) :
    ∀ (fuel rem st : Nat) (buf sink : List Nat) (written : Nat),
      st < 2 ^ (8 * r.width) → rem % r.width ≠ 0 → total = written + rem →
      buf.length = chunk → rem ≤ fuel →
      ∃ msg, r.lengthError = some msg ∧
        copyLoop r.Read chunk total fuel st buf sink written = .error msg := by
  intro fuel
  induction fuel with
  | zero =>
    intro rem st buf sink written _ hrem _ _ hfuel
    have : rem = 0 := by omega
    subst this
    simp at hrem
  | succ fuel ih =>
    intro rem st buf sink written hst hrem htot hbuf hfuel
    have hpos : 0 < rem := by
      rcases Nat.eq_zero_or_pos rem with h | h
      · subst h; simp at hrem
      · exact h
    have hne : ¬ written = total := by omega
    have hremaining : total - written = rem := by omega
    have htake : (buf.take (min chunk rem)).length = min chunk rem := by
      rw [List.length_take, hbuf]
      have := Nat.min_le_left chunk rem
      omega
    unfold copyLoop
    rw [if_neg hne]
    simp only [hremaining]
    by_cases hk : min chunk rem % r.width = 0
    · have hklt : min chunk rem = chunk ∧ chunk < rem := by
        rcases Nat.lt_or_ge chunk rem with h | h
        · exact ⟨Nat.min_eq_left (Nat.le_of_lt h), h⟩
        · rw [Nat.min_eq_right h] at hk
          exact absurd hk hrem
      have hR := CounterReader_Read_aligned r st (buf.take (min chunk rem)) hst
        (by rw [htake]; exact hk)
      rw [htake] at hR
      rw [hR]
      simp only []
      have hdvd : r.width ∣ min chunk rem := Nat.dvd_of_mod_eq_zero hk
      have hrem2 : (rem - min chunk rem) % r.width ≠ 0 := by
        intro h0
        apply hrem
        have hd2 : r.width ∣ rem - min chunk rem := Nat.dvd_of_mod_eq_zero h0
        have hsum : rem = (rem - min chunk rem) + min chunk rem := by omega
        rw [hsum]
        exact Nat.mod_eq_zero_of_dvd (Nat.dvd_add hd2 hdvd)
      have hlen : (counterRun r.width st (min chunk rem / r.width)).length = min chunk rem := by
        rw [counterRun_length]; exact Nat.mul_div_cancel' hdvd
      exact ih (rem - min chunk rem) _ _ _ _ (Nat.mod_lt _ (pow_bits_pos _)) hrem2
        (by omega) (by rw [List.length_append, hlen, List.length_drop, hbuf]; omega)
        (by omega)
    · obtain ⟨msg, hmsg, hR⟩ := CounterReader_Read_lengthError r st (buf.take (min chunk rem))
        (by rw [htake]; exact hk)
      rw [hR]
      exact ⟨msg, hmsg, rfl⟩

theorem copyLoop_no_progress (r : CounterReader) (total : Nat) :
    ∀ (fuel st : Nat) (buf sink : List Nat) (written : Nat),
      st < 2 ^ (8 * r.width) → written ≠ total →
      copyLoop r.Read 0 total fuel st buf sink written
        = .error "multiple Read calls return no data or error" := by
  intro fuel
  induction fuel with
  | zero =>
    intro st buf sink written _ hne
    simp [copyLoop, hne]
  | succ fuel ih =>
    intro st buf sink written hst hne
    have hR := CounterReader_Read_aligned r st [] hst (by simp)
    unfold copyLoop
    rw [if_neg hne]
    simp only [Nat.zero_min, List.take_zero, hR, List.length_nil, Nat.zero_div, Nat.add_zero,
      Nat.mod_eq_of_lt hst, counterRun, List.nil_append, List.drop_zero, List.take_nil,
      List.append_nil]
    exact ih st buf sink written hst hne

/-! ## Lemmas on decimal size literals -/

theorem foldl_decimal_le (ds : List Char) :
    ∀ (n : Nat), n ≤ ds.foldl (fun a c => a * 10 + (c.toNat - '0'.toNat)) n := by
  induction ds with
  | nil => intro n; exact Nat.le_refl _
  | cons c cs ih =>
    intro n
    rw [List.foldl_cons]
    have := ih (n * 10 + (c.toNat - '0'.toNat))
    omega

theorem parseDigits_decimal (ds : List Char) :
    ∀ (n : Nat), (∀ c ∈ ds, isDecimalDigit c) →
      ds.foldl (fun a c => a * 10 + (c.toNat - '0'.toNat)) n < 2 ^ 64 →
      parseDigits 10 ds n false
        = .ok (ds.foldl (fun a c => a * 10 + (c.toNat - '0'.toNat)) n, false) := by
  induction ds with
  | nil => intro n _ _; rfl
  | cons c cs ih =>
    intro n hdig hlt
    have hc : '0'.toNat ≤ c.toNat ∧ c.toNat ≤ '9'.toNat := hdig c (List.mem_cons_self _ _)
    have hcs : ∀ x ∈ cs, isDecimalDigit x := fun x hx => hdig x (List.mem_cons_of_mem _ hx)
    rw [List.foldl_cons] at hlt ⊢
    have hge := foldl_decimal_le cs (n * 10 + (c.toNat - '0'.toNat))
    have e0 : '0'.toNat = 48 := by decide
    have e9 : '9'.toNat = 57 := by decide
    rw [e0] at hge hlt
    rw [e0, e9] at hc
    have hcu : c ≠ '_' := by
      rintro rfl
      simp at hc
    have hsmall : n * 10 + (c.toNat - 48) < 2 ^ 64 := Nat.lt_of_le_of_lt hge hlt
    have hmod : (n * 10 + (c.toNat - 48)) % 2 ^ 64 = n * 10 + (c.toNat - 48) :=
      Nat.mod_eq_of_lt hsmall
    have key := ih (n * 10 + (c.toNat - '0'.toNat)) hcs (by rw [e0]; exact hlt)
    rw [e0] at key ⊢
    unfold parseDigits
    rw [if_neg hcu]
    simp only [e0, e9, hc, and_self, if_true]
    rw [if_neg (by omega), if_neg (by norm_num at hsmall ⊢; omega)]
    simp only [hmod]
    rw [if_neg (by norm_num at hsmall ⊢; omega)]
    exact key

theorem ParseInt_decimal (ds : List Char) (hne : ds ≠ [])
    (hdig : ∀ c ∈ ds, isDecimalDigit c) (hlead : ds.head? ≠ some '0')
    (hlt : decimalValue ds < 2 ^ 63) :
    ParseInt ds = .ok (decimalValue ds : Int) := by
  cases ds with
  | nil => exact absurd rfl hne
  | cons c0 rest =>
    have hc0 : c0 ≠ '0' := by
      intro h; apply hlead; simp [h]
    have hc : '0'.toNat ≤ c0.toNat ∧ c0.toNat ≤ '9'.toNat := hdig c0 (List.mem_cons_self _ _)
    have hplus : c0 ≠ '+' := by rintro rfl; simp at hc
    have hminus : c0 ≠ '-' := by rintro rfl; simp at hc
    have hpd := parseDigits_decimal (c0 :: rest) 0 hdig
      (Nat.lt_trans hlt (by norm_num))
    have hbp : basePrefix c0 rest = (10, c0 :: rest) := by
      simp [basePrefix, hc0]
    have hpu : ParseUint (c0 :: rest) = .ok (decimalValue (c0 :: rest)) := by
      simp only [ParseUint, hbp, hpd, decimalValue]
      simp
    have hnot : ¬ decimalValue (c0 :: rest) ≥ 2 ^ 63 := by omega
    simp only [ParseInt, hplus, hminus, or_self, if_false, hpu, decide_False, Bool.not_false,
      Bool.true_and, decide_eq_true_eq, hnot, Bool.false_and, Bool.false_eq_true]

theorem sizeStage_literal (lit : List Char) (n : Int) (hlit : ParseInt lit = .ok n)
    (hn : 0 ≤ n) :
    (n * 1024 ≤ 2 ^ 30 →
      sizeStage (lit ++ "KB".toList) = .ok (n * 1024) ∧
      sizeStage (lit ++ "kb".toList) = .ok (n * 1024)) ∧
    (n * 1024 * 1024 ≤ 2 ^ 30 →
      sizeStage (lit ++ "MB".toList) = .ok (n * 1024 * 1024) ∧
      sizeStage (lit ++ "mb".toList) = .ok (n * 1024 * 1024)) ∧
    (n ≤ 2 ^ 30 → sizeStage lit = .ok n) := by
  have hKB : "KB".toList = ['K', 'B'] := rfl
  have hkb : "kb".toList = ['k', 'b'] := rfl
  have hMB : "MB".toList = ['M', 'B'] := rfl
  have hmb : "mb".toList = ['m', 'b'] := rfl
  have hmem := ParseInt_ok_mem lit n hlit
  refine ⟨?_, ?_, ?_⟩
  · intro hle
    constructor
    · have h := sizeStage_of_factor (lit ++ "KB".toList) lit kb n
        (by rw [hKB, hkb, HasSuffix_append, take_append_two]; rfl) hlit hn (by decide)
        (by simpa [kb] using hle)
      simpa [kb] using h
    · have h := sizeStage_of_factor (lit ++ "kb".toList) lit kb n
        (by rw [hKB, hkb, HasSuffix_append, take_append_two]; simp) hlit hn (by decide)
        (by simpa [kb] using hle)
      simpa [kb] using h
  · intro hle
    have hmbv : n * mb = n * 1024 * 1024 := by simp [mb, kb]; ring
    constructor
    · have h := sizeStage_of_factor (lit ++ "MB".toList) lit mb n
        (by
          rw [hKB, hkb, hMB, hmb, HasSuffix_append, take_append_two,
            HasSuffix_append_ne lit 'M' 'B' 'K' 'B' (by decide),
            HasSuffix_append_ne lit 'M' 'B' 'k' 'b' (by decide)]
          rfl) hlit hn (by decide) (by rw [hmbv]; exact hle)
      rw [hmbv] at h; exact h
    · have h := sizeStage_of_factor (lit ++ "mb".toList) lit mb n
        (by
          rw [hKB, hkb, hMB, hmb, HasSuffix_append, take_append_two,
            HasSuffix_append_ne lit 'm' 'b' 'K' 'B' (by decide),
            HasSuffix_append_ne lit 'm' 'b' 'k' 'b' (by decide),
            HasSuffix_append_ne lit 'm' 'b' 'M' 'B' (by decide)]
          rfl) hlit hn (by decide) (by rw [hmbv]; exact hle)
      rw [hmbv] at h; exact h
  · intro hle
    have hno : ∀ (a b : Char), suffixLetter a → HasSuffix lit [a, b] = false := by
      intro a b ha
      cases hs : HasSuffix lit [a, b] with
      | false => rfl
      | true => exact absurd ha (hmem a (HasSuffix_mem lit a b hs))
    have h := sizeStage_of_factor lit lit 1 n
      (by
        rw [hKB, hkb, hMB, hmb, hno 'K' 'B' (Or.inl rfl), hno 'k' 'b' (Or.inr (Or.inl rfl)),
          hno 'M' 'B' (Or.inr (Or.inr (Or.inl rfl))), hno 'm' 'b' (Or.inr (Or.inr (Or.inr rfl)))]
        rfl) hlit hn (by decide) (by simpa using hle)
    simpa using h

/-! ## Lemmas on the period of the counter -/

theorem bigEndian_injective (w a b : Nat) (ha : a < 2 ^ (8 * w)) (hb : b < 2 ^ (8 * w))
    (h : bigEndian w a = bigEndian w b) : a = b := by
  rw [← decodeBE_bigEndian w a ha, ← decodeBE_bigEndian w b hb, h]

theorem add_mod_ne (M c i j : Nat) (hij : i < j) (hlt : j - i < M) :
    (c + i) % M ≠ (c + j) % M := by
  intro h
  have h0 : (c + j - (c + i)) % M = 0 := Nat.sub_mod_eq_zero_of_mod_eq h.symm
  have hsub : c + j - (c + i) = j - i := by omega
  rw [hsub] at h0
  have hle := Nat.le_of_dvd (by omega) (Nat.dvd_of_mod_eq_zero h0)
  omega

theorem add_mod_period (M c i : Nat) : (c + (i + M)) % M = (c + i) % M := by
  rw [← Nat.add_assoc, Nat.add_mod_right]

theorem alphanumericAt_getD (i : Nat) (hi : i < 36) :
    some ((alphanumericAt i).getD 0) = alphanumericAt i := by
  obtain ⟨c, hc, _⟩ := alphanumericAt_upper i hi
  rw [hc]; rfl

theorem drawBytes_alphaNumeric (n : Nat) (g : Rand) :
    drawBytes randAlphaNumericByte n g
      = (⟨g.draws, g.pos + n⟩,
          (List.range n).map (fun k =>
            (alphanumericAt (Rand.Intn ⟨g.draws, g.pos + k⟩ alphanumeric.length).1).getD 0)) := by
  induction n with
  | zero => rfl
  | succ n ih =>
    simp only [drawBytes, ih, randAlphaNumericByte, Rand.Intn, List.range_succ, List.map_append,
      List.map_cons, List.map_nil]
    rfl

theorem randAlphaNumericReader_Read_map (g : Rand) (p : List Nat) :
    randAlphaNumericReader.Read g p
      = ⟨⟨g.draws, g.pos + p.length⟩,
          (List.range p.length).map (fun k =>
            (alphanumericAt (Rand.Intn ⟨g.draws, g.pos + k⟩ alphanumeric.length).1).getD 0),
          p.length, none⟩ := by
  rw [randAlphaNumericReader_Read_eq, drawBytes_alphaNumeric]

theorem Intn_alphanumeric_lt (h : Rand) : (h.Intn alphanumeric.length).1 < 36 := by
  simp only [Rand.Intn, alphanumeric_length]
  exact Nat.mod_lt _ (by decide)

/-! ## The claims (continued) -/

/-- C11: pattern-key resolution over the registry built in `main`. The empty
key resolves to `ZeroReader`; each of the nine keys 0, f, r, ra, ran, ctr, ctr2,
ctr4, ctr8 resolves to its own reader; the nine keys are pairwise distinct; and
every other non-empty key (the match is exact and case-sensitive, so `CTR` and
`F` are such keys) resolves to no reader, which `main` reports as an error. -/
theorem pattern_key_resolution (key : String) :
    lookupReader dataOptionList "" = some Reader.ZeroReader ∧
    lookupReader dataOptionList "0" = some Reader.ZeroReader ∧
    lookupReader dataOptionList "f" = some Reader.FfReader ∧
    lookupReader dataOptionList "r" = some Reader.RandReader ∧
    lookupReader dataOptionList "ra" = some Reader.RandomAlphabetReader ∧
    lookupReader dataOptionList "ran" = some Reader.RandomAlphabetNumericCharacterReader ∧
    lookupReader dataOptionList "ctr" = some (Reader.counter CounterReader.byte) ∧
    lookupReader dataOptionList "ctr2" = some (Reader.counter CounterReader.uint16) ∧
    lookupReader dataOptionList "ctr4" = some (Reader.counter CounterReader.uint32) ∧
    lookupReader dataOptionList "ctr8" = some (Reader.counter CounterReader.uint64) ∧
    dataOptionList.map (fun d => d.Key)
      = ["0", "f", "r", "ra", "ran", "ctr", "ctr2", "ctr4", "ctr8"] ∧
    (dataOptionList.map (fun d => d.Key)).Nodup ∧
    (key ≠ "" → key ∉ dataOptionList.map (fun d => d.Key) →
      lookupReader dataOptionList key = none ∧
      dataStage key = .error "[Error] Invalid --data option.\n") ∧
    lookupReader dataOptionList "CTR" = none ∧
    lookupReader dataOptionList "F" = none := by
  refine ⟨by decide, by decide, by decide, by decide, by decide, by decide, by decide,
    by decide, by decide, by decide, by decide, by decide, ?_, by decide, by decide⟩
  intro hkey hnot
  have hnone : lookupReader dataOptionList key = none := by
    rw [lookupReader_eq_lastMatch _ _ hkey]
    apply lastMatch_eq_none
    intro d hd hdk
    exact hnot (List.mem_map.mpr ⟨d, hd, hdk⟩)
  exact ⟨hnone, by simp [dataStage, hnone]⟩

theorem pattern_key_resolution_witness :
    "ctr3" ≠ "" ∧ "ctr3" ∉ dataOptionList.map (fun d => d.Key) ∧
    lookupReader dataOptionList "ctr3" = none ∧
    dataStage "ctr3" = .error "[Error] Invalid --data option.\n" :=
  ⟨by decide, by decide,
    (pattern_key_resolution "ctr3").2.2.2.2.2.2.2.2.2.2.2.2.1 (by decide) (by decide)⟩

/-- C18 (the claim as stated fails): in a registry whose two entries share the key
`k`, the lookup loop of `main` yields the reader of the second entry (`FfReader`),
not the reader of the first entry in list order (`ZeroReader`). -/
theorem first_match_lookup_counterexample :
    "k" ≠ "" ∧
    lookupReader [⟨"k", "first", Reader.ZeroReader⟩, ⟨"k", "second", Reader.FfReader⟩] "k"
      = some Reader.FfReader ∧
    firstMatch [⟨"k", "first", Reader.ZeroReader⟩, ⟨"k", "second", Reader.FfReader⟩] "k"
      = some Reader.ZeroReader ∧
    lookupReader [⟨"k", "first", Reader.ZeroReader⟩, ⟨"k", "second", Reader.FfReader⟩] "k"
      ≠ firstMatch [⟨"k", "first", Reader.ZeroReader⟩, ⟨"k", "second", Reader.FfReader⟩] "k" := by
  decide

/-- C18 (amended): for every list of registry entries and every non-empty key,
the lookup loop of `main` yields the reader of the last entry in list order whose
`Key` equals the key exactly, and no reader when no entry matches; when the keys
of the list are pairwise distinct that entry is also the first match. -/
theorem last_match_lookup (list : List dataOption) (key : String) (hkey : key ≠ "") :
    lookupReader list key = lastMatch list key ∧
    ((∀ d ∈ list, d.Key ≠ key) → lookupReader list key = none) ∧
    ((list.map (fun d => d.Key)).Nodup → lookupReader list key = firstMatch list key) := by
  have h := lookupReader_eq_lastMatch list key hkey
  refine ⟨h, ?_, ?_⟩
  · intro hno
    rw [h]; exact lastMatch_eq_none list key hno
  · intro hnd
    rw [h]; exact lastMatch_eq_firstMatch key list hnd

theorem last_match_lookup_witness :
    "k" ≠ "" ∧
    (lookupReader [⟨"k", "first", Reader.ZeroReader⟩, ⟨"k", "second", Reader.FfReader⟩] "k"
      = lastMatch [⟨"k", "first", Reader.ZeroReader⟩, ⟨"k", "second", Reader.FfReader⟩] "k" ∧
    ((∀ d ∈ [(⟨"k", "first", Reader.ZeroReader⟩ : dataOption),
        ⟨"k", "second", Reader.FfReader⟩], d.Key ≠ "k") →
      lookupReader [⟨"k", "first", Reader.ZeroReader⟩, ⟨"k", "second", Reader.FfReader⟩] "k"
        = none) ∧
    (([(⟨"k", "first", Reader.ZeroReader⟩ : dataOption),
        ⟨"k", "second", Reader.FfReader⟩].map (fun d => d.Key)).Nodup →
      lookupReader [⟨"k", "first", Reader.ZeroReader⟩, ⟨"k", "second", Reader.FfReader⟩] "k"
        = firstMatch [⟨"k", "first", Reader.ZeroReader⟩,
            ⟨"k", "second", Reader.FfReader⟩] "k")) :=
  ⟨by decide,
    last_match_lookup [⟨"k", "first", Reader.ZeroReader⟩, ⟨"k", "second", Reader.FfReader⟩] "k"
      (by decide)⟩

/-- C13: for every buffer p and every outcome of the random draws,
`(*randAlphabetReader).Read(p)` returns `(len(p), nil)`, keeps the length of p,
and every byte written is an ASCII letter, in `A`..`Z` or `a`..`z`. -/
theorem rand_alphabet_letters (g : Rand) (p : List Nat) :
    (randAlphabetReader.Read g p).n = p.length ∧
    (randAlphabetReader.Read g p).err = none ∧
    (randAlphabetReader.Read g p).p.length = p.length ∧
    (∀ b ∈ (randAlphabetReader.Read g p).p, isLetter b) := by
  rw [randAlphabetReader_Read_eq]
  refine ⟨rfl, rfl, drawBytes_length _ _ _, ?_⟩
  exact drawBytes_forall randAlphabetByte isLetter randAlphabetByte_isLetter _ _

theorem rand_alphabet_letters_witness :
    (randAlphabetReader.Read ⟨fun i => 7 * i + 3, 0⟩ [0, 0, 0]).n = [0, 0, 0].length ∧
    (randAlphabetReader.Read ⟨fun i => 7 * i + 3, 0⟩ [0, 0, 0]).err = none ∧
    (randAlphabetReader.Read ⟨fun i => 7 * i + 3, 0⟩ [0, 0, 0]).p.length = [0, 0, 0].length ∧
    (∀ b ∈ (randAlphabetReader.Read ⟨fun i => 7 * i + 3, 0⟩ [0, 0, 0]).p, isLetter b) :=
  rand_alphabet_letters ⟨fun i => 7 * i + 3, 0⟩ [0, 0, 0]

/-- C14 (the code on every input): the first draw is `rand.Intn('Z' - 'A')`, a value
below 25, so for every buffer and every outcome of the draws
`(*randAlphabetReader).Read` writes neither `Z` nor `z`: only 50 of the 52
letters are ever produced, the last ones being `Y` (draws 24 and 0) and `y`
(draws 24 and 1). -/
theorem rand_alphabet_never_Z (g : Rand) (p : List Nat) :
    'Z'.toNat - 'A'.toNat = 25 ∧
    'Z'.toNat ∉ (randAlphabetReader.Read g p).p ∧
    'z'.toNat ∉ (randAlphabetReader.Read g p).p ∧
    (randAlphabetReader.Read ⟨fun _ => 24, 0⟩ [0]).p = ['Y'.toNat] ∧
    (randAlphabetReader.Read ⟨fun i => 24 + i, 0⟩ [0]).p = ['y'.toNat] := by
  rw [randAlphabetReader_Read_eq]
  have h := drawBytes_forall randAlphabetByte (fun b => b ≠ 'Z'.toNat ∧ b ≠ 'z'.toNat)
    randAlphabetByte_ne p.length g
  exact ⟨by decide, fun hm => (h _ hm).1 rfl, fun hm => (h _ hm).2 rfl, by decide, by decide⟩

/-- C15: for every buffer p and every outcome of the random draws,
`(*randAlphaNumericReader).Read(p)` returns `(len(p), nil)`, keeps the length of
p, makes exactly one draw per byte, and writes as k-th byte the entry of the
table `alphanumeric` at the k-th drawn index, so every byte written lies in
`[0-9A-Z]`; the drawn index is always below the length 36 of the table; the map
from an index below 36 to the table entry is a bijection onto `[0-9A-Z]`; and
for each character of `[0-9A-Z]` there is exactly one index for which a Read
of one byte writes that character. -/
theorem rand_alphanumeric (g : Rand) (p : List Nat) :
    (randAlphaNumericReader.Read g p).n = p.length ∧
    (randAlphaNumericReader.Read g p).err = none ∧
    (randAlphaNumericReader.Read g p).p.length = p.length ∧
    (∀ b ∈ (randAlphaNumericReader.Read g p).p, isUpperAlphaNumeric b) ∧
    alphanumeric.length = 36 ∧
    (∀ h : Rand, (h.Intn alphanumeric.length).1 < alphanumeric.length) ∧
    (∀ i, i < 36 → ∃ c, alphanumericAt i = some c ∧ isUpperAlphaNumeric c) ∧
    (∀ i j, i < 36 → j < 36 → alphanumericAt i = alphanumericAt j → i = j) ∧
    (∀ c, isUpperAlphaNumeric c → ∃ i, i < 36 ∧ alphanumericAt i = some c) ∧
    (randAlphaNumericReader.Read g p).state = ⟨g.draws, g.pos + p.length⟩ ∧
    (∀ k, k < p.length →
      (randAlphaNumericReader.Read g p).p.get? k
        = alphanumericAt (Rand.Intn ⟨g.draws, g.pos + k⟩ alphanumeric.length).1) ∧
    (∀ c, isUpperAlphaNumeric c → ∃ i, i < 36 ∧ ∀ h : Rand,
      ((randAlphaNumericReader.Read h [0]).p = [c] ↔ (h.Intn alphanumeric.length).1 = i)) := by
  refine ⟨?_, ?_, ?_, ?_, alphanumeric_length, ?_,
    alphanumericAt_upper, alphanumericAt_injective, alphanumericAt_surjective, ?_, ?_, ?_⟩
  · rw [randAlphaNumericReader_Read_eq]
  · rw [randAlphaNumericReader_Read_eq]
  · rw [randAlphaNumericReader_Read_eq]; exact drawBytes_length _ _ _
  · rw [randAlphaNumericReader_Read_eq]
    exact drawBytes_forall randAlphaNumericByte isUpperAlphaNumeric
      randAlphaNumericByte_upper _ _
  · intro h
    rw [alphanumeric_length]; exact Intn_alphanumeric_lt h
  · rw [randAlphaNumericReader_Read_map]
  · intro k hk
    rw [randAlphaNumericReader_Read_map]
    simp only [List.get?_eq_getElem?, List.getElem?_map, List.getElem?_range hk, Option.map_some']
    exact alphanumericAt_getD _ (Intn_alphanumeric_lt _)
  · intro c hc
    obtain ⟨i, hi, hic⟩ := alphanumericAt_surjective c hc
    refine ⟨i, hi, ?_⟩
    intro h
    have hp : (randAlphaNumericReader.Read h [0]).p
        = [(alphanumericAt (h.Intn alphanumeric.length).1).getD 0] := by
      rw [randAlphaNumericReader_Read_map]
      rfl
    have hsome := alphanumericAt_getD _ (Intn_alphanumeric_lt h)
    rw [hp]
    constructor
    · intro heq
      have hx : (alphanumericAt (h.Intn alphanumeric.length).1).getD 0 = c := by
        simpa using heq
      rw [hx] at hsome
      exact alphanumericAt_injective _ _ (Intn_alphanumeric_lt h) hi (by rw [← hsome, hic])
    · intro hidx
      rw [hidx, hic]
      rfl

theorem rand_alphanumeric_witness :
    (randAlphaNumericReader.Read ⟨fun i => 7 * i + 3, 0⟩ [0, 0, 0]).n = [0, 0, 0].length ∧
    (randAlphaNumericReader.Read ⟨fun i => 7 * i + 3, 0⟩ [0, 0, 0]).err = none ∧
    (randAlphaNumericReader.Read ⟨fun i => 7 * i + 3, 0⟩ [0, 0, 0]).p.length
      = [0, 0, 0].length ∧
    (∀ b ∈ (randAlphaNumericReader.Read ⟨fun i => 7 * i + 3, 0⟩ [0, 0, 0]).p,
      isUpperAlphaNumeric b) ∧
    alphanumeric.length = 36 ∧
    (∀ h : Rand, (h.Intn alphanumeric.length).1 < alphanumeric.length) ∧
    (∀ i, i < 36 → ∃ c, alphanumericAt i = some c ∧ isUpperAlphaNumeric c) ∧
    (∀ i j, i < 36 → j < 36 → alphanumericAt i = alphanumericAt j → i = j) ∧
    (∀ c, isUpperAlphaNumeric c → ∃ i, i < 36 ∧ alphanumericAt i = some c) ∧
    (randAlphaNumericReader.Read ⟨fun i => 7 * i + 3, 0⟩ [0, 0, 0]).state
      = ⟨fun i => 7 * i + 3, 0 + [0, 0, 0].length⟩ ∧
    (∀ k, k < [0, 0, 0].length →
      (randAlphaNumericReader.Read ⟨fun i => 7 * i + 3, 0⟩ [0, 0, 0]).p.get? k
        = alphanumericAt (Rand.Intn ⟨fun i => 7 * i + 3, 0 + k⟩ alphanumeric.length).1) ∧
    (∀ c, isUpperAlphaNumeric c → ∃ i, i < 36 ∧ ∀ h : Rand,
      ((randAlphaNumericReader.Read h [0]).p = [c] ↔ (h.Intn alphanumeric.length).1 = i)) :=
  rand_alphanumeric ⟨fun i => 7 * i + 3, 0⟩ [0, 0, 0]

/-- C12: for every reader of the registry (constant, random, counter of every
width) a request of size 0 succeeds and the sink receives no byte: the size
argument `0` is accepted as size 0, the copy of 0 bytes returns without a fill
(so without an alignment error) and leaves the reader as it was, and the whole
action outputs the empty byte string for every key that resolves to the
reader. -/
theorem size_zero_copy (r : Reader) (st : ReaderState) :
    sizeStage "0".toList = .ok 0 ∧
    CopyN r.Read st 0 = .ok (st, []) ∧
    (∀ key, lookupReader dataOptionList key = some r → Action key "0".toList st = .ok []) := by
  have hs : sizeStage "0".toList = .ok 0 := by decide
  have hc : CopyN r.Read st 0 = .ok (st, []) := copy_zero _ _ _
  refine ⟨hs, hc, ?_⟩
  intro key hkey
  have h0 : (0 : Int).toNat = 0 := rfl
  simp only [Action, hs, dataStage, hkey, h0, hc]

theorem size_zero_copy_witness :
    sizeStage "0".toList = .ok 0 ∧
    CopyN (Reader.counter CounterReader.uint64).Read ⟨5, ⟨fun i => i, 0⟩, ⟨fun i => i, 0⟩⟩ 0
      = .ok (⟨5, ⟨fun i => i, 0⟩, ⟨fun i => i, 0⟩⟩, []) ∧
    (∀ key, lookupReader dataOptionList key = some (Reader.counter CounterReader.uint64) →
      Action key "0".toList ⟨5, ⟨fun i => i, 0⟩, ⟨fun i => i, 0⟩⟩ = .ok []) :=
  size_zero_copy (Reader.counter CounterReader.uint64) ⟨5, ⟨fun i => i, 0⟩, ⟨fun i => i, 0⟩⟩

/-- C17: for each counter reader of width W in {2, 4, 8} and every size S in
[0, 2^30] that is not a multiple of W, the copy of S bytes from the reader does
not succeed, whatever the chunk size of the copier: for every positive chunk
size, and for the one of `main`, the copy stops with the error of the reader's
length check. -/
theorem misaligned_copy_fails (r : CounterReader) (S chunk : Nat) (hS : S ≤ 2 ^ 30)
    (hmis : S % r.width ≠ 0) :
    (∃ msg, copy r.Read chunk r.fresh S = .error msg) ∧
    (0 < chunk → ∃ msg, r.lengthError = some msg ∧ copy r.Read chunk r.fresh S = .error msg) ∧
    (∃ msg, r.lengthError = some msg ∧ CopyN r.Read r.fresh S = .error msg) := by
  have _hS := hS
  have hpos : ∀ c, 0 < c →
      ∃ msg, r.lengthError = some msg ∧ copy r.Read c r.fresh S = .error msg := by
    intro c hc
    exact copyLoop_misaligned r c S hc S S 0 (List.replicate c 0) [] 0 (pow_bits_pos _) hmis
      (by simp) (by simp) (Nat.le_refl _)
  refine ⟨?_, hpos chunk, hpos defaultBufSize (by decide)⟩
  rcases Nat.eq_zero_or_pos chunk with h0 | h0
  · subst h0
    have hne : (0 : Nat) ≠ S := by
      intro h; rw [← h] at hmis; simp at hmis
    exact ⟨_, copyLoop_no_progress r S S 0 _ [] 0 (pow_bits_pos _) hne⟩
  · obtain ⟨msg, _, h⟩ := hpos chunk h0
    exact ⟨msg, h⟩

theorem misaligned_copy_fails_witness :
    4098 ≤ 2 ^ 30 ∧ 4098 % CounterReader.uint32.width ≠ 0 ∧
    ((∃ msg, copy CounterReader.uint32.Read 4096 CounterReader.uint32.fresh 4098 = .error msg) ∧
    (0 < 4096 → ∃ msg, CounterReader.uint32.lengthError = some msg ∧
      copy CounterReader.uint32.Read 4096 CounterReader.uint32.fresh 4098 = .error msg) ∧
    (∃ msg, CounterReader.uint32.lengthError = some msg ∧
      CopyN CounterReader.uint32.Read CounterReader.uint32.fresh 4098 = .error msg)) :=
  ⟨by decide, by decide,
    misaligned_copy_fails CounterReader.uint32 4098 4096 (by decide) (by decide)⟩

/-- C19 (the claim as stated fails): the size argument `010` consists solely of
decimal digits and has the base-10 value 10, but `strconv.ParseInt(sizeArg, 0, 64)`
reads a literal with a leading 0 as octal: the size used is 8 (and 8192 for
`010KB`), and `08` is rejected as invalid. -/
theorem leading_zero_counterexample :
    (∀ c ∈ "010".toList, isDecimalDigit c) ∧
    decimalValue "010".toList = 10 ∧
    sizeStage "010".toList = .ok 8 ∧
    sizeStage "010".toList ≠ .ok (decimalValue "010".toList : Int) ∧
    sizeStage "010KB".toList = .ok 8192 ∧
    sizeStage "08".toList = .error "[Error] invalid as a size argument" := by
  decide

/-- C19 (amended): for every size argument consisting solely of decimal digits
whose first digit is not 0, optionally followed by a `KB`/`kb`/`MB`/`mb`
suffix, the numeric value used is the base-10 value of the digit string (the
literal parses to it when it is below 2^63, and the size is that value times
the factor when the product is at most 2^30); a literal with the `0x` prefix is
hexadecimal, and a digit string with a leading 0 is read as octal (`010` gives 8). -/
theorem decimal_size_literal (ds : List Char) (hne : ds ≠ [])
    (hdig : ∀ c ∈ ds, isDecimalDigit c) (hlead : ds.head? ≠ some '0') :
    (decimalValue ds < 2 ^ 63 → ParseInt ds = .ok (decimalValue ds : Int)) ∧
    ((decimalValue ds : Int) ≤ 2 ^ 30 → sizeStage ds = .ok (decimalValue ds : Int)) ∧
    ((decimalValue ds : Int) * 1024 ≤ 2 ^ 30 →
      sizeStage (ds ++ "KB".toList) = .ok ((decimalValue ds : Int) * 1024) ∧
      sizeStage (ds ++ "kb".toList) = .ok ((decimalValue ds : Int) * 1024)) ∧
    ((decimalValue ds : Int) * 1024 * 1024 ≤ 2 ^ 30 →
      sizeStage (ds ++ "MB".toList) = .ok ((decimalValue ds : Int) * 1024 * 1024) ∧
      sizeStage (ds ++ "mb".toList) = .ok ((decimalValue ds : Int) * 1024 * 1024)) ∧
    sizeStage "0x10".toList = .ok 16 ∧
    sizeStage "010".toList = .ok 8 := by
  have hparse : decimalValue ds < 2 ^ 63 → ParseInt ds = .ok (decimalValue ds : Int) :=
    ParseInt_decimal ds hne hdig hlead
  have hnn : (0 : Int) ≤ (decimalValue ds : Int) := Int.ofNat_nonneg _
  refine ⟨hparse, ?_, ?_, ?_, by decide, by decide⟩
  · intro hle
    have hlt : decimalValue ds < 2 ^ 63 := by norm_num at hle ⊢; omega
    exact (sizeStage_literal ds _ (hparse hlt) hnn).2.2 hle
  · intro hle
    have hlt : decimalValue ds < 2 ^ 63 := by norm_num at hle ⊢; omega
    exact (sizeStage_literal ds _ (hparse hlt) hnn).1 hle
  · intro hle
    have hlt : decimalValue ds < 2 ^ 63 := by norm_num at hle ⊢; omega
    exact (sizeStage_literal ds _ (hparse hlt) hnn).2.1 hle

theorem decimal_size_literal_witness :
    "100".toList ≠ [] ∧ (∀ c ∈ "100".toList, isDecimalDigit c) ∧
    "100".toList.head? ≠ some '0' ∧
    ((decimalValue "100".toList < 2 ^ 63 →
      ParseInt "100".toList = .ok (decimalValue "100".toList : Int)) ∧
    ((decimalValue "100".toList : Int) ≤ 2 ^ 30 →
      sizeStage "100".toList = .ok (decimalValue "100".toList : Int)) ∧
    ((decimalValue "100".toList : Int) * 1024 ≤ 2 ^ 30 →
      sizeStage ("100".toList ++ "KB".toList) = .ok ((decimalValue "100".toList : Int) * 1024) ∧
      sizeStage ("100".toList ++ "kb".toList)
        = .ok ((decimalValue "100".toList : Int) * 1024)) ∧
    ((decimalValue "100".toList : Int) * 1024 * 1024 ≤ 2 ^ 30 →
      sizeStage ("100".toList ++ "MB".toList)
        = .ok ((decimalValue "100".toList : Int) * 1024 * 1024) ∧
      sizeStage ("100".toList ++ "mb".toList)
        = .ok ((decimalValue "100".toList : Int) * 1024 * 1024)) ∧
    sizeStage "0x10".toList = .ok 16 ∧
    sizeStage "010".toList = .ok 8) :=
  ⟨by decide, by decide, by decide,
    decimal_size_literal "100".toList (by decide) (by decide) (by decide)⟩

/-- C20: no duplicates within a period. For each counter reader of width W,
every starting counter value c and every sequence of aligned Reads with no
Reset in between (one Read included), any two units of the bytes emitted that
lie fewer than 2^(8W) positions apart are distinct as byte strings, and the
unit 2^(8W) positions after a unit is equal to it. -/
theorem counter_period (r : CounterReader) (c : Nat) (ps : List (List Nat))
    (hc : c < 2 ^ (8 * r.width)) (hps : ∀ p ∈ ps, p.length % r.width = 0) :
    (∀ i j, i < j → j < (ps.map List.length).sum / r.width → j - i < 2 ^ (8 * r.width) →
      unitAt r.width ((r.readAll c ps).2.map (fun res => res.p)).flatten i
        ≠ unitAt r.width ((r.readAll c ps).2.map (fun res => res.p)).flatten j) ∧
    (∀ i, i + 2 ^ (8 * r.width) < (ps.map List.length).sum / r.width →
      unitAt r.width ((r.readAll c ps).2.map (fun res => res.p)).flatten (i + 2 ^ (8 * r.width))
        = unitAt r.width ((r.readAll c ps).2.map (fun res => res.p)).flatten i) := by
  have hM := pow_bits_pos r.width
  obtain ⟨_, _, _, h4⟩ := CounterReader_readAll_aligned r ps c hc hps
  rw [h4]
  constructor
  · intro i j hij hj hlt heq
    rw [unitAt_counterRun _ _ _ _ (Nat.lt_trans hij hj), unitAt_counterRun _ _ _ _ hj] at heq
    exact add_mod_ne _ c i j hij hlt
      (bigEndian_injective _ _ _ (Nat.mod_lt _ hM) (Nat.mod_lt _ hM) heq)
  · intro i hi
    rw [unitAt_counterRun _ _ _ _ hi, unitAt_counterRun _ _ _ _ (by omega), add_mod_period]

theorem counter_period_witness :
    250 < 2 ^ (8 * CounterReader.byte.width) ∧
    (∀ p ∈ [List.replicate 200 0, List.replicate 100 0], p.length % CounterReader.byte.width = 0) ∧
    ((∀ i j, i < j → j < ([List.replicate 200 0, List.replicate 100 0].map List.length).sum / CounterReader.byte.width →
      j - i < 2 ^ (8 * CounterReader.byte.width) →
      unitAt CounterReader.byte.width
          ((CounterReader.byte.readAll 250 [List.replicate 200 0, List.replicate 100 0]).2.map (fun res => res.p)).flatten i
        ≠ unitAt CounterReader.byte.width
          ((CounterReader.byte.readAll 250 [List.replicate 200 0, List.replicate 100 0]).2.map
            (fun res => res.p)).flatten j) ∧
    (∀ i, i + 2 ^ (8 * CounterReader.byte.width)
        < ([List.replicate 200 0, List.replicate 100 0].map List.length).sum / CounterReader.byte.width →
      unitAt CounterReader.byte.width
          ((CounterReader.byte.readAll 250 [List.replicate 200 0, List.replicate 100 0]).2.map (fun res => res.p)).flatten
          (i + 2 ^ (8 * CounterReader.byte.width))
        = unitAt CounterReader.byte.width
          ((CounterReader.byte.readAll 250 [List.replicate 200 0, List.replicate 100 0]).2.map
            (fun res => res.p)).flatten i)) :=
  ⟨by decide, fun p _ => Nat.mod_one p.length,
    counter_period CounterReader.byte 250 [List.replicate 200 0, List.replicate 100 0]
      (by decide) (fun p _ => Nat.mod_one p.length)⟩

end DataGenerator
